import Mathlib

/-!
# Verification of the gc-viz managed heap and its collectors

A shallow embedding of `src/dkp.cc`: a pedagogical garbage-collector
workbench with a fixed-size word heap, tagged heap objects
(Nil, Forward, Free, Num, Tup, Vec, Str), a registered root set of
handles, and four collector algorithms (reference counting, mark-sweep,
semi-space copying, mark-compact).

Machine words are modelled as `Nat` (with explicit `% 65536` where the
16-bit wrap of `unsigned short` matters).  The heap is modelled at
object granularity as a total function from word locations to objects:
every field of an object is word sized in the source, so copying an
words of an object to a new start location yields the same object at the
new location, which is what the function-update model expresses.
Nontermination (the unbounded recursion of the collector over the object
graph) is modelled with fuel returning `Option`.
-/

namespace GcViz

/-- `const int HeapSize = 2000;` -/
def HeapSize : Nat := 2000

/-- `const int HeapSemiSize = 1000;` -/
def HeapSemiSize : Nat := 1000

/-- The tagged heap objects of the object model (`enum Type` in class `Obj`).

* `nil`     — `TNil`, the singleton at location 0, size 1.
* `fwd to sz` — `TForward`: a forwarding record written in place over a moved
  object ( `ForwardingAddress` ), carrying the destination `to`.  The source
  only overwrites the first two words of the moved object; `sz` records the
  footprint of the overwritten object so object boundaries are unchanged.
* `free len` — `TFree`: a reclaimable run of `len` words (`FreeBlock`).
* `num v`   — `TNum`: a signed word value (class `Num`).
* `tup slots` — `TTup`: header, length, then `length` location slots (class `Tup`).
* `vec len tup` — `TVec`: growable sequence; current length and the location
  of a backing `Tup` (class `Vec`).
* `str chars` — `TStr`: header, length, then one char per word (class `Str`).
-/
inductive HObj where
  | nil : HObj
  | fwd (dest : Nat) (sz : Nat) : HObj
  | free (len : Nat) : HObj
  | num (v : Int) : HObj
  | tup (slots : List Nat) : HObj
  | vec (len : Nat) (tup : Nat) : HObj
  | str (chars : List Nat) : HObj
deriving Repr, DecidableEq

namespace HObj

/-- `Obj::size()`: words occupied by the object.
`Num::size_needed() = 2`, `Tup::size_needed(len) = 2 + len`,
`Vec::size_needed(len) = 3`, `Str::size_needed(len) = 2 + len`,
`FreeBlock::size() = len`, and the default branch returns 1 (for `TNil`).
The source asserts `type() != TForward` there; the footprint of a
forwarding record is the recorded size of the object it overwrote. -/
def size : HObj → Nat
  | .nil => 1
  | .fwd _ sz => sz
  | .free len => len
  | .num _ => 2
  | .tup slots => 2 + slots.length
  | .vec _ _ => 3
  | .str chars => 2 + chars.length

/-- The outgoing reference fields of an object: a `Tup` has its slots,
a `Vec` has its backing-tup field, every other type has none.  These are
exactly the locations rewritten by `fixup_references`. -/
def succs : HObj → List Nat
  | .tup slots => slots
  | .vec _ t => [t]
  | _ => []

/-- `Obj::fixup_references()`: replace each outgoing location by its
post-move location (`Tup::fixup_references` maps every slot through
`Mem::loc_after_move`; `Vec::fixup_references` maps the backing-tup
field; all other types do nothing). -/
def fixup (resolve : Nat → Nat) : HObj → HObj
  | .tup slots => .tup (slots.map resolve)
  | .vec len t => .vec len (resolve t)
  | o => o

/-- Is the header type `TForward`? -/
def isFwd : HObj → Bool
  | .fwd _ _ => true
  | _ => false

@[simp] theorem size_fixup (resolve : Nat → Nat) (o : HObj) :
    (o.fixup resolve).size = o.size := by
  cases o <;> simp [fixup, size]

@[simp] theorem isFwd_fixup (resolve : Nat → Nat) (o : HObj) :
    (o.fixup resolve).isFwd = o.isFwd := by
  cases o <;> simp [fixup, isFwd]

end HObj

/-- A heap: a total map from word locations to the object starting there.
Locations that are not the start of a live object are never consulted by
well-formed runs. -/
abbrev Heap := Nat → HObj

/-- The structural value reachable from a location, as the spec compares
values: `Num` by numeric value, `Str` by contents, `Tup` and `Vec`
element-wise (a `Vec` contributes its first `len` backing slots). -/
inductive Value where
  | vnil : Value
  | vnum (v : Int) : Value
  | vstr (chars : List Nat) : Value
  | vtup (vals : List Value) : Value
  | vvec (vals : List Value) : Value
deriving Repr

/-- Read off the structural value rooted at a location, with fuel;
`none` when the fuel runs out or the location does not carry a data
value (a `Free` or `Forward` header). -/
def valueAt (h : Heap) : Nat → Nat → Option Value
  | 0, _ => none
  | fuel+1, l =>
    match h l with
    | .nil => some .vnil
    | .num v => some (.vnum v)
    | .str cs => some (.vstr cs)
    | .tup slots => (slots.mapM (valueAt h fuel)).map .vtup
    | .vec len t =>
      match h t with
      | .tup slots => ((slots.take len).mapM (valueAt h fuel)).map .vvec
      | _ => none
    | _ => none

/-- A pending call of the traversal machinery: `Obj::traverse` on an
object, or the slot loop of `Tup::traverse` on a list of slots. -/
inductive VisitCall where
  | obj (o : HObj) : VisitCall
  | slotList (ls : List Nat) : VisitCall

/-- `Obj::traverse(VisitFn f)`: the sequence of locations passed to the
visit callback, in call order.  `Tup::traverse` calls `f(val[i])` for
every slot `i` (zero slots included) and then recursively traverses the
object at `val[i]` (the `slotList` loop); `Vec::traverse` calls
`f(tup)` and then runs `Tup::traverse` on the backing tup (so the slots
of the backing follow); all other types visit nothing.  `none` models
nontermination (fuel) and the unchecked cast in `Vec::traverse` when
the backing is not a `Tup`. -/
def visitGo (h : Heap) : Nat → VisitCall → Option (List Nat)
  | 0, _ => none
  | fuel+1, .obj o =>
    match o with
    | .tup slots => visitGo h fuel (.slotList slots)
    | .vec _ t =>
      match h t with
      | .tup slots => (visitGo h fuel (.slotList slots)).map (fun out => t :: out)
      | _ => none
    | _ => some []
  | _+1, .slotList [] => some []
  | fuel+1, .slotList (s :: rest) => do
    let inner ← visitGo h fuel (.obj (h s))
    let more ← visitGo h fuel (.slotList rest)
    pure (s :: (inner ++ more))

/-- The visit sequence of `Obj::traverse` on an object. -/
def visitObj (h : Heap) (fuel : Nat) (o : HObj) : Option (List Nat) :=
  visitGo h fuel (.obj o)

/-- Insert into a strictly ascending list, keeping it sorted and
duplicate free: the behaviour of `std::set<Nat>::insert`. -/
def setInsert (x : Nat) : List Nat → List Nat
  | [] => [x]
  | y :: ys => if x < y then x :: y :: ys else if x = y then y :: ys else y :: setInsert x ys

/-- Collect a list into an ascending duplicate-free list, as a
`std::set` iterated in order would present it. -/
def setOfList (l : List Nat) : List Nat := l.foldl (fun acc x => setInsert x acc) []

/-- `Mem::mark_live()`: clear the live set, then for every handle in the
root list insert its location (`mark_live_loc` ignores location 0) and
traverse the object there inserting every visited non-zero location.
The result is the live set in ascending order. -/
def markLive (h : Heap) (fuel : Nat) (roots : List Nat) : Option (List Nat) := do
  let seqs ← roots.mapM (fun r => (visitObj h fuel (h r)).map (fun l => r :: l))
  pure (setOfList (seqs.flatten.filter (fun l => l ≠ 0)))

/-- The memory-trace events relevant to the reclamation
logging (`log_free_mem`). -/
inductive MEvent where
  | freeMem (loc : Nat) (size : Nat) : MEvent
deriving Repr, DecidableEq

/-- The collector-visible state: the heap, the allocation frontier
`Mem::top`, and the locations held by the handles of the root list, in
list order. -/
structure St where
  heap : Heap
  top : Nat
  roots : List Nat

namespace Mem

/-- `Mem::reserve(UWd size)`: return the current `top` and advance it by
`size`; `top` is an `unsigned short`, so the addition wraps at `2^16`.
The source then runs `assert(top < HeapSize)`, which aborts (modelled as
`none`) when the advanced `top` is not strictly below `HeapSize`. -/
def reserve (top : Nat) (size : Nat) : Option (Nat × Nat) :=
  let loc := top
  let top' := (top + size) % 65536
  if top' < HeapSize then some (loc, top') else none

end Mem

/-! ## Reference-counting mode (`REF_COUNT_GC`)

State for the mutator operations in reference-counting mode: the heap,
the 8-bit per-object reference counts (an own map because the header
field does not fit the object-granular `HObj`), and the allocation
frontier.  All reference-count arithmetic wraps at `2^8`, the width of
the `ref_count : 8` bitfield. -/

/-- The mutator-visible state in reference-counting mode. -/
structure RSt where
  heap : Heap
  rc : Nat → Nat
  top : Nat

/-- Overwrite the backing-tup field of a `Vec` (the write `tup = 0` in
`Vec::cleanup` and `vec->tup = new_tup` in `VecRef::push`). -/
def setVecTup : HObj → Nat → HObj
  | .vec len _, t => .vec len t
  | o, _ => o

/-- The pending call of the mutually recursive release machinery:
`ObjRef::unshare`, `Obj::cleanup`, and the slot loop of `Tup::cleanup`. -/
inductive RcOp where
  | unshareO (l : Nat)
  | cleanO (l : Nat)
  | slotsO (l : Nat) (i : Nat) (k : Nat)

/-- One fused interpreter for the release machinery, with fuel.

* `unshareO l` — `ObjRef::unshare(Nat loc)`: if `loc` is nonzero, run
  `Obj::dec_ref_count` (decrement the 8-bit count; on zero run
  `cleanup()` and report true) and, when it reported true,
  `Mem::free(loc, obj->size())` writes a `Free` header in place.
* `cleanO l` — `Obj::cleanup()`: `Tup::cleanup` releases and zeroes each
  slot in order; `Vec::cleanup` releases the backing tup and zeroes the
  field; other types do nothing.
* `slotsO l i k` — the `Tup::cleanup` loop with `k` slots left starting
  at index `i`, rereading the (partially zeroed) tuple each iteration.

The boolean is the result of `dec_ref_count` (whether the object died);
`none` is fuel exhaustion (a cascade deeper than the fuel). -/
def rcStep : Nat → RSt → RcOp → Option (RSt × Bool)
  | 0, _, _ => none
  | fuel+1, st, .unshareO l =>
    if l = 0 then some (st, false)
    else
      let r := (st.rc l + 255) % 256
      let st1 : RSt := { st with rc := Function.update st.rc l r }
      if r = 0 then
        (rcStep fuel st1 (.cleanO l)).map (fun p =>
          ({ p.1 with heap := Function.update p.1.heap l (.free (p.1.heap l).size) }, true))
      else some (st1, false)
  | fuel+1, st, .cleanO l =>
    match st.heap l with
    | .tup slots => rcStep fuel st (.slotsO l 0 slots.length)
    | .vec _ t =>
      (rcStep fuel st (.unshareO t)).map (fun p =>
        ({ p.1 with heap := Function.update p.1.heap l (setVecTup (p.1.heap l) 0) }, false))
    | _ => some (st, false)
  | _+1, st, .slotsO _ _ 0 => some (st, false)
  | fuel+1, st, .slotsO l i (k+1) =>
    match st.heap l with
    | .tup slots => do
      let s := slots.getD i 0
      let p ← rcStep fuel st (.unshareO s)
      let st1 := p.1
      let zeroAt : HObj → HObj := fun o =>
        match o with
        | .tup s2 => .tup (s2.set i 0)
        | o => o
      let st2 : RSt := { st1 with heap := Function.update st1.heap l (zeroAt (st1.heap l)) }
      rcStep fuel st2 (.slotsO l (i+1) k)
    | _ => some (st, false)

namespace Tup

/-- `Tup::set(int i, ObjRef obj)`: assert `i < len`; then
`Nat tmp = obj.share();` (increment the ref count of the incoming
location), `ObjRef::unshare(val[i]);` (decrement the ref count of the
outgoing location, releasing it if the count reaches zero), and finally
`val[i] = tmp;`.  The comment in the source: always increment the ref
count before decrementing, otherwise self-assignment will fail.
Returns the updated state and whether the unshare freed the outgoing
object; `none` when the assertion fails or fuel runs out. -/
def set (fuel : Nat) (st : RSt) (l : Nat) (i : Nat) (objLoc : Nat) : Option (RSt × Bool) :=
  match st.heap l with
  | .tup slots =>
    if i < slots.length then
      let st1 : RSt := { st with rc := Function.update st.rc objLoc ((st.rc objLoc + 1) % 256) }
      (rcStep fuel st1 (.unshareO (slots.getD i 0))).map (fun p =>
        ({ p.1 with heap := Function.update p.1.heap l (match p.1.heap l with
            | .tup s2 => .tup (s2.set i objLoc) | o => o) }, p.2))
    else none
  | _ => none

end Tup

namespace Vec

/-- `Vec::set(int i, ObjRef obj)`: assert `i < len` (the length of the
vector), then delegate to `Tup::set` on the backing tup. -/
def set (fuel : Nat) (st : RSt) (vecLoc : Nat) (i : Nat) (objLoc : Nat) :
    Option (RSt × Bool) :=
  match st.heap vecLoc with
  | .vec len t => if i < len then Tup.set fuel st t i objLoc else none
  | _ => none

end Vec

namespace VecRef

/-- `VecRef::push(ObjRef obj)`.  When the backing tup is full
(`tup->len == vec->len`), grow: `TupRef(vec->tup, 2 * vec->len)` runs
`Mem::copy(src, Tup::size_needed(2 len))` (reserve `2 + 2 len` words,
copy the `2 + len` source words, zero the rest), sets the fresh count
to 1 (`init_ref_count`), and `Tup::init(2 len)` rewrites the length
field and increments the count of every nonzero copied slot; `.share()`
increments the count of the new backing, the expiring temporary handle
decrements it again, `ObjRef::unshare(vec->tup)` releases the old
backing, and only then is the backing field overwritten.  In both paths
`tup->set(vec->len, obj)` stores the pushed value and `vec->len += 1`
increments the length. -/
def push (fuel : Nat) (st : RSt) (vecLoc : Nat) (objLoc : Nat) : Option RSt := do
  match st.heap vecLoc with
  | .vec len t =>
    match st.heap t with
    | .tup slots =>
      if slots.length = len then
        -- grow path: TupRef(vec->tup, 2 * vec->len)
        let (newLoc, top') ← Mem.reserve st.top (2 + 2 * len)
        let newSlots := slots ++ List.replicate (2 * len - slots.length) 0
        let st1 : RSt :=
          { heap := Function.update st.heap newLoc (.tup newSlots)
            rc := Function.update st.rc newLoc 1
            top := top' }
        -- Tup::init(2 * len): bump the count of every nonzero initial slot
        let st2 : RSt := { st1 with
          rc := newSlots.foldl (fun rc s =>
            if s ≠ 0 then Function.update rc s ((rc s + 1) % 256) else rc) st1.rc }
        -- .share() on the temporary, then its destructor: + 1 - 1 with no release
        let st3 : RSt := { st2 with
          rc := Function.update st2.rc newLoc ((st2.rc newLoc + 1) % 256) }
        let st4 : RSt := { st3 with
          rc := Function.update st3.rc newLoc ((st3.rc newLoc + 255) % 256) }
        -- ObjRef::unshare(vec->tup); vec->tup = new_tup;
        let p ← rcStep fuel st4 (.unshareO t)
        let st5 := p.1
        let st6 : RSt := { st5 with
          heap := Function.update st5.heap vecLoc (setVecTup (st5.heap vecLoc) newLoc) }
        -- tup->set(vec->len, obj); vec->len += 1;
        let q ← Tup.set fuel st6 newLoc len objLoc
        let st7 := q.1
        pure { st7 with
          heap := Function.update st7.heap vecLoc (.vec (len + 1) newLoc) }
      else
        let q ← Tup.set fuel st t len objLoc
        let st7 := q.1
        pure { st7 with
          heap := Function.update st7.heap vecLoc (.vec (len + 1) t) }
    | _ => none
  | _ => none

end VecRef

/-! ## The collectors -/

/-- The linear heap walk shared by `Mem::sweep_garbage` and the heap
loop of `Mem::fixup_references`:
`while (loc < stop) { obj = at(loc); size = obj->size(); ...; loc += size; }`,
rewriting the object at each visited start with `step` (which may also
emit trace events) and advancing by the size read before the rewrite.
`none` models a walk that does not reach `stop` within the fuel. -/
def walkUpd (step : Heap → Nat → HObj → HObj × List MEvent) :
    Nat → Nat → Nat → Heap → List MEvent → Option (Heap × List MEvent)
  | 0, _, _, _, _ => none
  | fuel+1, loc, stop, h, evs =>
    if loc < stop then
      let o := h loc
      walkUpd step fuel (loc + o.size) stop
        (Function.update h loc (step h loc o).1) (evs ++ (step h loc o).2)
    else some (h, evs)

/-- `Mem::loc_after_move` in `COPY_GC` mode: read the header at `loc`;
if it is a forwarding record return its destination, else `loc`. -/
def locAfterMoveCopy (h : Heap) (l : Nat) : Nat :=
  match h l with
  | .fwd dest _ => dest
  | _ => l

/-- `Mem::loc_after_move` in the side-table modes: look `loc` up in the
forwarding table and return the entry if present, else `loc`. -/
def locAfterMoveCompact (fwd : List (Nat × Nat)) (l : Nat) : Nat :=
  match fwd.lookup l with
  | some dest => dest
  | none => l

namespace Mem

/-- `Mem::sweep_garbage()`: walk the heap from location 1 to `top`; for
every cell not in the live set, `free(loc, size)` writes a `Free`
header of the size of the cell in place and logs one free event. -/
def sweepGarbage (fuel : Nat) (live : List Nat) (s : St) :
    Option (Heap × List MEvent) :=
  walkUpd (fun _ loc o =>
    if live.contains loc then (o, [])
    else (.free o.size, [.freeMem loc o.size])) fuel 1 s.top s.heap []

/-- `Mem::move_live()`: mark the live set, flip `top` to the start of
the other semi-space (1 when the active region was high, else
`HeapSemiSize`), then `Mem::move` every live location in ascending
order: reserve `size` words at `top`, copy the object there, and
overwrite the source with a forwarding record to the destination. -/
def moveLive (fuel : Nat) (s : St) : Option (Heap × Nat) := do
  let live ← markLive s.heap fuel s.roots
  let base := if HeapSemiSize ≤ s.top then 1 else HeapSemiSize
  live.foldlM (fun (acc : Heap × Nat) l => do
    if l = 0 then pure acc
    else
      let (h, top) := acc
      let o := h l
      let (dst, top') ← Mem.reserve top o.size
      pure (Function.update (Function.update h dst o) l (.fwd dst o.size), top'))
    (s.heap, base)

/-- `Mem::compact_live()` after marking: walk the heap from location 1
to the old `top`.  A live cell is left in place while `top` still
equals the old top; once `top` has been rewound (to the first dead cell
seen), every live cell is slid down with
`Mem::move_without_forwarding` (reserve at `top` with possible overlap
and copy) and the pair `from → to` is recorded in the side table.  A
dead cell rewinds `top` to its start if `top` is still the old top. -/
def compactGo (live : List Nat) (oldTop : Nat) :
    Nat → Nat → Heap → Nat → List (Nat × Nat) →
    Option (Heap × Nat × List (Nat × Nat))
  | 0, _, _, _, _ => none
  | fuel+1, from_, h, top, fwd =>
    if from_ < oldTop then
      let o := h from_
      let size := o.size
      if live.contains from_ then
        if top ≠ oldTop then
          compactGo live oldTop fuel (from_ + size)
            (Function.update h top o) (top + size) (fwd ++ [(from_, top)])
        else compactGo live oldTop fuel (from_ + size) h top fwd
      else
        if top = oldTop then compactGo live oldTop fuel (from_ + size) h from_ fwd
        else compactGo live oldTop fuel (from_ + size) h top fwd
    else some (h, top, fwd)

/-- The selected collector algorithm (`-D` build-time selector): exactly
one of `REF_COUNT_GC`, `MARK_SWEEP_GC`, `COPY_GC`, `MARK_COMPACT_GC`. -/
inductive GcMode where
  | refCount : GcMode
  | markSweep : GcMode
  | copySpace : GcMode
  | markCompact : GcMode

/-- `Mem::gc()` together with the mode-specific pieces it invokes, and
the free events it logs.

* `MARK_SWEEP_GC`: `mark_live(); sweep_garbage();` — `top` unchanged.
* `COPY_GC`: `move_live(); fixup_references();` then log the vacated
  region: `(1, HeapSemiSize-1)` when `top >= HeapSemiSize`, else
  `(HeapSemiSize, HeapSemiSize)`.  `fixup_references` rewrites every
  handle location through `loc_after_move` and then walks the new
  region (from `HeapSemiSize` when `top >= HeapSemiSize`, else from 1)
  running `fixup_references` on every object.
* `MARK_COMPACT_GC`: `compact_live();` and, only if `top` moved,
  `fixup_references()` (table-based resolution, walking from 1) and one
  free event for the vacated tail `(top, old_top - top)`.
* `REF_COUNT_GC`: none of the branches is compiled in; `gc()` is a
  no-op. -/
def gc : GcMode → Nat → St → Option (St × List MEvent)
  | .refCount, _, s => some (s, [])
  | .markSweep, fuel, s => do
    let live ← markLive s.heap fuel s.roots
    let (h2, evs) ← sweepGarbage fuel live s
    pure ({ s with heap := h2 }, evs)
  | .copySpace, fuel, s => do
    let (h1, top1) ← moveLive fuel s
    let roots' := s.roots.map (locAfterMoveCopy h1)
    let start := if HeapSemiSize ≤ top1 then HeapSemiSize else 1
    let (h2, _) ← walkUpd (fun h _ o => (o.fixup (locAfterMoveCopy h), [])) fuel start top1 h1 []
    let evs := if HeapSemiSize ≤ top1 then [MEvent.freeMem 1 (HeapSemiSize - 1)]
               else [MEvent.freeMem HeapSemiSize HeapSemiSize]
    pure ({ heap := h2, top := top1, roots := roots' }, evs)
  | .markCompact, fuel, s => do
    let live ← markLive s.heap fuel s.roots
    let oldTop := s.top
    let r ← compactGo live oldTop fuel 1 s.heap oldTop []
    let (h1, top1, fwd) := r
    if top1 < oldTop then
      let resolve := locAfterMoveCompact fwd
      let roots' := s.roots.map resolve
      let (h2, _) ← walkUpd (fun _ _ o => (o.fixup resolve, [])) fuel 1 top1 h1 []
      pure ({ heap := h2, top := top1, roots := roots' }, [MEvent.freeMem top1 (oldTop - top1)])
    else
      pure ({ heap := h1, top := top1, roots := s.roots }, [])

end Mem

namespace Str

/-- `Str::split(char sep, int begin[], int end[])`: scan the characters
left to right; at each separator write the pair `(last, i)` into the
buffers and restart the segment after it; after the loop write the
final pair `(last, len)`.  The result lists the written pairs in write
order; the write into the buffers for the pair at position `j` of the
list goes to buffer index `j`, and the function returns `found + 1`,
the length of this list. -/
def splitPairs (chars : List Nat) (sep : Nat) : List (Nat × Nat) :=
  go chars 0 0
where
  /-- The scan loop: remaining characters, current index `i`, start
  `last` of the current segment. -/
  go : List Nat → Nat → Nat → List (Nat × Nat)
  | [], i, last => [(last, i)]
  | c :: rest, i, last =>
    if c = sep then (last, i) :: go rest (i + 1) (i + 1)
    else go rest (i + 1) last

end Str

namespace StrRef

/-- `StrRef::split(char sep)` declares `int begin[5]; int end[5];`: the
begin and end buffers hold five entries each. -/
def splitBufLen : Nat := 5

end StrRef

/-! ## Properties of the ordered live set -/

/-! ## Example states and derived definitions -/

/-- Invariant 2 of the spec data model: walking the heap from `loc` by
successive object sizes visits exactly the starts in the list and ends
exactly at `stop`. -/
def Tiling (h : Heap) : List Nat → Nat → Nat → Prop
  | [], loc, stop => loc = stop
  | l :: ls, loc, stop => l = loc ∧ loc < stop ∧ Tiling h ls (loc + (h l).size) stop

/-- Apply the post-move fixup to the argument of a pending traversal
call: the object is fixed up, a pending slot list is the already
rewritten slots. -/
def VisitCall.fixup (resolve : Nat → Nat) : VisitCall → VisitCall
  | .obj o => .obj (o.fixup resolve)
  | .slotList ls => .slotList (ls.map resolve)

/-- The survivors of a collection: the heap starts that are in the live
set, in address order. -/
def survivorsOf (live starts : List Nat) : List Nat :=
  starts.filter (fun l => live.contains l)

/-- The length of the prefix of the heap walk that stays in place: the
cells before the first dead cell. -/
def keepLenOf (live starts : List Nat) : Nat :=
  (starts.takeWhile (fun l => live.contains l)).length

/-- The total size of the listed objects. -/
def sizeSum (h : Heap) (ls : List Nat) : Nat :=
  (ls.map (fun x => (h x).size)).sum

/-- The slide assignment: the first listed object goes to `t0`, each
following object the size of the previous one further. -/
def slideTargets (h : Heap) : List Nat → Nat → List (Nat × Nat)
  | [], _ => []
  | l :: ls, t0 => (l, t0) :: slideTargets h ls (t0 + (h l).size)

/-- Apply a list of moves in order: each copies the object now at the
source to the target (`Mem::move_without_forwarding`). -/
def applySlides (h : Heap) : List (Nat × Nat) → Heap
  | [] => h
  | (l, t) :: ps => applySlides (Function.update h t (h l)) ps

/-- The slide is always downward: each accumulated target lies strictly
below its source. -/
def SlideOK (h0 : Heap) : List Nat → Nat → Prop
  | [], _ => True
  | l :: ls, t0 => t0 < l ∧ SlideOK h0 ls (t0 + (h0 l).size)

/-- A minimal heap state: one live `Num` handle, heap otherwise nil. -/
def exNumSt : St :=
  { heap := fun l => if l = 1 then .num 7 else .nil, top := 3, roots := [1] }

/-- Heap for the traversal claim: location 1 holds a tuple with a zero
slot and a slot referencing a second tuple, which references a number. -/
def exTraverseHeap : Heap := fun l =>
  if l = 1 then .tup [0, 2] else
  if l = 2 then .tup [3] else
  if l = 3 then .num 5 else .nil

/-- Reference-counting state whose tuple at location 1 has a zero slot
(the slot holds the Nil location). -/
def exRcZeroSlot : RSt :=
  { heap := fun l => if l = 1 then .tup [0] else .nil,
    rc := fun l => if l = 0 then 1 else if l = 1 then 1 else 0,
    top := 4 }

/-- Reference-counting state for the self-assignment claim: a vector at
2 backed by the tuple at 1 whose slot holds the number at 5. -/
def exRcSelf : RSt :=
  { heap := fun l =>
      if l = 1 then .tup [5] else
      if l = 2 then .vec 1 1 else
      if l = 5 then .num 3 else .nil,
    rc := fun l => if l = 1 then 1 else if l = 2 then 1 else if l = 5 then 1 else 0,
    top := 7 }

/-- Heap for the witness of the traversal claim: a tuple whose two
slots hold numbers. -/
def exTraverseLeafHeap : Heap := fun l =>
  if l = 1 then .tup [3, 5] else
  if l = 3 then .num 1 else
  if l = 5 then .num 2 else .nil

/-- The boundary state for the semi-space fixup: the high region is
active (`top = 1999`), holding a string of 992 characters at 1000
(994 words), a number at 1994 (2 words), and a tuple at 1996 (3 words)
whose slot references the number; the live payload is exactly
`HeapSemiSize - 1 = 999` words. -/
def exBoundarySt : St :=
  { heap := fun l =>
      if l = 1000 then .str (List.replicate 992 97) else
      if l = 1994 then .num 7 else
      if l = 1996 then .tup [1994] else .nil,
    top := 1999,
    roots := [1996, 1000] }

/-- Heap for the witness of the compaction claim: numbers at 1, 3, 5. -/
def exCompactHeap : Heap := fun l =>
  if l = 1 then .num 10 else if l = 3 then .num 20 else if l = 5 then .num 30 else .nil

/-- State for the witness of the idempotence claim: numbers at 1, 3, 5
with the middle one unreachable. -/
def exMCSt : St := { heap := exCompactHeap, top := 7, roots := [1, 5] }

/-- Reference-counting state for the push counterexample: an empty
vector backed by a zero-capacity tuple. -/
def exRcPushEmpty : RSt :=
  { heap := fun l =>
      if l = 1 then .tup [] else
      if l = 2 then .vec 0 1 else
      if l = 5 then .num 3 else .nil,
    rc := fun l => if l = 1 then 1 else if l = 2 then 1 else if l = 5 then 1 else 0,
    top := 7 }

/-- Reference-counting state for the push witness: a one-element
vector at 5 backed by the full tuple at 3, a number at 8 to push. -/
def exRcPush : RSt :=
  { heap := fun l =>
      if l = 1 then .num 4 else
      if l = 3 then .tup [1] else
      if l = 5 then .vec 1 3 else
      if l = 8 then .num 9 else .nil,
    rc := fun l =>
      if l = 1 then 1 else if l = 3 then 1 else if l = 5 then 1 else
      if l = 8 then 1 else 0,
    top := 10 }

/-! # Theorems -/

theorem mem_setInsert {x y : Nat} {l : List Nat} :
    y ∈ setInsert x l ↔ y = x ∨ y ∈ l := by
  induction l with
  | nil => simp [setInsert]
  | cons z zs ih =>
    by_cases h1 : x < z
    · simp only [setInsert, if_pos h1, List.mem_cons]
      try tauto
    · by_cases h2 : x = z
      · subst h2
        have hrw : setInsert x (x :: zs) = x :: zs := by
          unfold setInsert
          rw [if_neg h1, if_pos rfl]
        rw [hrw]
        simp only [List.mem_cons]
        tauto
      · simp only [setInsert, if_neg h1, if_neg h2, List.mem_cons, ih]
        tauto

theorem sorted_setInsert {x : Nat} {l : List Nat} (h : l.Sorted (· < ·)) :
    (setInsert x l).Sorted (· < ·) := by
  induction l with
  | nil => simp [setInsert]
  | cons z zs ih =>
    rcases List.sorted_cons.mp h with ⟨hz, hzs⟩
    by_cases h1 : x < z
    · simp only [setInsert, if_pos h1]
      refine List.sorted_cons.mpr ⟨?_, h⟩
      intro b hb
      rcases List.mem_cons.mp hb with rfl | hb
      · exact h1
      · exact lt_trans h1 (hz b hb)
    · by_cases h2 : x = z
      · subst h2
        simpa only [setInsert, if_neg h1, if_pos rfl] using h
      · have hzx : z < x := by omega
        simp only [setInsert, if_neg h1, if_neg h2]
        refine List.sorted_cons.mpr ⟨?_, ih hzs⟩
        intro b hb
        rcases mem_setInsert.mp hb with rfl | hb
        · exact hzx
        · exact hz b hb

theorem mem_setOfList {y : Nat} {l : List Nat} : y ∈ setOfList l ↔ y ∈ l := by
  suffices h : ∀ acc, y ∈ l.foldl (fun a x => setInsert x a) acc ↔ y ∈ acc ∨ y ∈ l by
    have := h []
    simpa [setOfList] using this
  induction l with
  | nil => intro acc; simp
  | cons z zs ih =>
    intro acc
    rw [List.foldl_cons, ih]
    rw [mem_setInsert]
    simp only [List.mem_cons]
    tauto

theorem sorted_setOfList (l : List Nat) : (setOfList l).Sorted (· < ·) := by
  suffices h : ∀ acc : List Nat, acc.Sorted (· < ·) →
      (l.foldl (fun a x => setInsert x a) acc).Sorted (· < ·) by
    exact h [] (by simp)
  induction l with
  | nil => intro acc hacc; simpa using hacc
  | cons z zs ih => intro acc hacc; exact ih _ (sorted_setInsert hacc)

theorem setInsert_map {f : Nat → Nat} {x : Nat} {l : List Nat}
    (hmono : ∀ a ∈ x :: l, ∀ b ∈ x :: l, a < b → f a < f b) :
    setInsert (f x) (l.map f) = (setInsert x l).map f := by
  induction l with
  | nil => simp [setInsert]
  | cons z zs ih =>
    have hxl : x ∈ x :: z :: zs := by simp
    have hzl : z ∈ x :: z :: zs := by simp
    rcases lt_trichotomy x z with h | h | h
    · have hf : f x < f z := hmono x hxl z hzl h
      simp [setInsert, h, hf]
    · subst h
      simp [setInsert]
    · have hfz : f z < f x := hmono z hzl x hxl h
      have hnlt : ¬ x < z := by omega
      have hne : x ≠ z := by omega
      have hfnlt : ¬ f x < f z := by omega
      have hfne : f x ≠ f z := by omega
      simp only [List.map_cons, setInsert, if_neg hnlt, if_neg hne, if_neg hfnlt,
        if_neg hfne, List.map_cons]
      rw [ih]
      intro a ha b hb
      have ha' : a ∈ x :: z :: zs := by
        rcases List.mem_cons.mp ha with rfl | ha <;> simp [ha]
      have hb' : b ∈ x :: z :: zs := by
        rcases List.mem_cons.mp hb with rfl | hb <;> simp [hb]
      exact hmono a ha' b hb'

theorem setOfList_map_aux {f : Nat → Nat} : ∀ (l acc : List Nat),
    (∀ a ∈ l ++ acc, ∀ b ∈ l ++ acc, a < b → f a < f b) →
    (l.map f).foldl (fun a x => setInsert x a) (acc.map f) =
      (l.foldl (fun a x => setInsert x a) acc).map f := by
  intro l
  induction l with
  | nil => intro acc _; simp
  | cons z zs ih =>
    intro acc hmono
    rw [List.map_cons, List.foldl_cons, List.foldl_cons]
    rw [setInsert_map (by
      intro a ha b hb hab
      refine hmono a ?_ b ?_ hab
      · rcases List.mem_cons.mp ha with rfl | ha <;> simp [ha]
      · rcases List.mem_cons.mp hb with rfl | hb <;> simp [hb])]
    refine ih (setInsert z acc) ?_
    intro a ha b hb hab
    have split_mem : ∀ c, c ∈ zs ++ setInsert z acc → c ∈ (z :: zs) ++ acc := by
      intro c hc
      rcases List.mem_append.mp hc with hc | hc
      · simp [hc]
      · rcases mem_setInsert.mp hc with rfl | hc <;> simp [hc]
    exact hmono a (split_mem a ha) b (split_mem b hb) hab

theorem setOfList_map {f : Nat → Nat} {l : List Nat}
    (hmono : ∀ a ∈ l, ∀ b ∈ l, a < b → f a < f b) :
    setOfList (l.map f) = (setOfList l).map f := by
  have := setOfList_map_aux l [] (by simpa using hmono)
  simpa [setOfList] using this

/-! ## The heap partition invariant -/

theorem Tiling.mem_bounds {h : Heap} : ∀ {starts : List Nat} {loc stop : Nat},
    Tiling h starts loc stop → ∀ x ∈ starts, loc ≤ x ∧ x < stop := by
  intro starts
  induction starts with
  | nil => intro loc stop _ x hx; cases hx
  | cons l ls ih =>
    intro loc stop ht x hx
    obtain ⟨rfl, hlt, hrest⟩ := ht
    rcases List.mem_cons.mp hx with rfl | hx
    · exact ⟨le_refl _, hlt⟩
    · have := ih hrest x hx
      omega

theorem Tiling.sum {h : Heap} : ∀ {starts : List Nat} {loc stop : Nat},
    Tiling h starts loc stop →
    loc + (starts.map (fun x => (h x).size)).sum = stop := by
  intro starts
  induction starts with
  | nil => intro loc stop ht; simpa using ht
  | cons l ls ih =>
    intro loc stop ht
    obtain ⟨rfl, _, hrest⟩ := ht
    have := ih hrest
    simp only [List.map_cons, List.sum_cons]
    omega

theorem Tiling.sorted {h : Heap} : ∀ {starts : List Nat} {loc stop : Nat},
    Tiling h starts loc stop → (∀ x ∈ starts, 0 < (h x).size) →
    starts.Sorted (· < ·) := by
  intro starts
  induction starts with
  | nil => intro _ _ _ _; simp
  | cons l ls ih =>
    intro loc stop ht hsz
    obtain ⟨rfl, _, hrest⟩ := ht
    refine List.sorted_cons.mpr ⟨?_, ih hrest (fun x hx => hsz x (by simp [hx]))⟩
    intro b hb
    have hb' := Tiling.mem_bounds hrest b hb
    have := hsz l (by simp)
    omega

theorem Tiling.congr {h h' : Heap} : ∀ {starts : List Nat} {loc stop : Nat},
    Tiling h starts loc stop → (∀ x ∈ starts, (h' x).size = (h x).size) →
    Tiling h' starts loc stop := by
  intro starts
  induction starts with
  | nil => intro loc stop ht _; exact ht
  | cons l ls ih =>
    intro loc stop ht hsz
    obtain ⟨rfl, hlt, hrest⟩ := ht
    refine ⟨rfl, hlt, ?_⟩
    rw [hsz l (by simp)]
    exact ih hrest (fun x hx => hsz x (by simp [hx]))

/-! ## Properties of the traversal -/

theorem visitGo_slotList_subset {h : Heap} :
    ∀ {fuel : Nat} {ls out : List Nat},
      visitGo h fuel (.slotList ls) = some out → ∀ s ∈ ls, s ∈ out := by
  intro fuel
  induction fuel with
  | zero => intro ls out hv; simp [visitGo] at hv
  | succ f ih =>
    intro ls out hv s hs
    cases ls with
    | nil => cases hs
    | cons a rest =>
      simp only [visitGo, bind, Option.bind_eq_some, Option.some.injEq, pure] at hv
      obtain ⟨inner, _, more, hmore, rfl⟩ := hv
      rcases List.mem_cons.mp hs with rfl | hs
      · exact List.mem_cons_self _ _
      · have := ih hmore s hs
        simp [List.mem_cons, List.mem_append, this]

theorem visitObj_succs_subset {h : Heap} {fuel : Nat} {o : HObj} {out : List Nat}
    (hv : visitObj h fuel o = some out) : ∀ s ∈ o.succs, s ∈ out := by
  cases fuel with
  | zero => simp [visitObj, visitGo] at hv
  | succ f =>
    intro s hs
    cases o with
    | tup slots =>
      exact visitGo_slotList_subset (by simpa [visitObj, visitGo] using hv) s hs
    | vec len t =>
      simp only [HObj.succs, List.mem_singleton] at hs
      subst hs
      simp only [visitObj, visitGo] at hv
      cases hht : h s with
      | tup ts =>
        rw [hht] at hv
        dsimp only at hv
        cases hgo : visitGo h f (.slotList ts) with
        | none => rw [hgo] at hv; cases hv
        | some out' =>
          rw [hgo] at hv
          simp only [Option.map_some', Option.some.injEq] at hv
          subst hv
          exact List.mem_cons_self _ _
      | nil => rw [hht] at hv; cases hv
      | fwd a b => rw [hht] at hv; cases hv
      | free a => rw [hht] at hv; cases hv
      | num a => rw [hht] at hv; cases hv
      | vec a b => rw [hht] at hv; cases hv
      | str a => rw [hht] at hv; cases hv
    | nil => cases hs
    | fwd a b => cases hs
    | free a => cases hs
    | num a => cases hs
    | str a => cases hs

theorem visitGo_cons_inv {h : Heap} {f a : Nat} {rest out : List Nat}
    (hv : visitGo h (f+1) (.slotList (a :: rest)) = some out) :
    ∃ inner more, visitGo h f (.obj (h a)) = some inner ∧
      visitGo h f (.slotList rest) = some more ∧ out = a :: (inner ++ more) := by
  simp only [visitGo, bind, Option.bind_eq_some, pure, Option.some.injEq] at hv
  obtain ⟨inner, h1, more, h2, h3⟩ := hv
  exact ⟨inner, more, h1, h2, h3.symm⟩

theorem visitGo_vec_inv {h : Heap} {f len t : Nat} {out : List Nat}
    (hv : visitGo h (f+1) (.obj (.vec len t)) = some out) :
    ∃ ts out', h t = .tup ts ∧ visitGo h f (.slotList ts) = some out' ∧
      out = t :: out' := by
  simp only [visitGo] at hv
  cases hht : h t with
  | tup ts =>
    rw [hht] at hv
    dsimp only at hv
    cases hgo : visitGo h f (.slotList ts) with
    | none => rw [hgo] at hv; cases hv
    | some out' =>
      rw [hgo] at hv
      simp only [Option.map_some', Option.some.injEq] at hv
      exact ⟨ts, out', rfl, hgo, hv.symm⟩
  | nil => rw [hht] at hv; cases hv
  | fwd a b => rw [hht] at hv; cases hv
  | free a => rw [hht] at hv; cases hv
  | num a => rw [hht] at hv; cases hv
  | vec a b => rw [hht] at hv; cases hv
  | str a => rw [hht] at hv; cases hv

theorem visitGo_closed {h : Heap} :
    ∀ (fuel : Nat) (c : VisitCall) (out : List Nat),
      visitGo h fuel c = some out → ∀ x ∈ out, ∀ y ∈ (h x).succs, y ∈ out := by
  intro fuel
  induction fuel with
  | zero => intro c out hv; simp [visitGo] at hv
  | succ f ih =>
    intro c out hv x hx y hy
    match c with
    | .obj (.tup slots) =>
      have hv' : visitGo h f (.slotList slots) = some out := by simpa [visitGo] using hv
      exact ih _ _ hv' x hx y hy
    | .obj (.vec len t) =>
      obtain ⟨ts, out', hht, hgo, rfl⟩ := visitGo_vec_inv hv
      rcases List.mem_cons.mp hx with rfl | hx
      · rw [hht] at hy
        simp only [HObj.succs] at hy
        exact List.mem_cons.mpr (Or.inr (visitGo_slotList_subset hgo y hy))
      · exact List.mem_cons.mpr (Or.inr (ih _ _ hgo x hx y hy))
    | .obj .nil =>
      have hout : out = [] := by simpa [visitGo] using hv.symm
      subst hout; cases hx
    | .obj (.fwd a b) =>
      have hout : out = [] := by simpa [visitGo] using hv.symm
      subst hout; cases hx
    | .obj (.free a) =>
      have hout : out = [] := by simpa [visitGo] using hv.symm
      subst hout; cases hx
    | .obj (.num a) =>
      have hout : out = [] := by simpa [visitGo] using hv.symm
      subst hout; cases hx
    | .obj (.str a) =>
      have hout : out = [] := by simpa [visitGo] using hv.symm
      subst hout; cases hx
    | .slotList [] =>
      have hout : out = [] := by simpa [visitGo] using hv.symm
      subst hout; cases hx
    | .slotList (a :: rest) =>
      obtain ⟨inner, more, hin, hmo, rfl⟩ := visitGo_cons_inv hv
      rcases List.mem_cons.mp hx with rfl | hx
      · have : y ∈ inner := visitObj_succs_subset (o := h x) hin y hy
        simp [List.mem_cons, List.mem_append, this]
      · rcases List.mem_append.mp hx with hx | hx
        · have := ih _ _ hin x hx y hy
          simp [List.mem_cons, List.mem_append, this]
        · have := ih _ _ hmo x hx y hy
          simp [List.mem_cons, List.mem_append, this]

theorem visitGo_congr {h h' : Heap} :
    ∀ (fuel : Nat) (c : VisitCall) (out : List Nat),
      visitGo h fuel c = some out → (∀ x ∈ out, h' x = h x) →
      visitGo h' fuel c = some out := by
  intro fuel
  induction fuel with
  | zero => intro c out hv _; simp [visitGo] at hv
  | succ f ih =>
    intro c out hv hag
    match c with
    | .obj (.tup slots) =>
      have hv' : visitGo h f (.slotList slots) = some out := by simpa [visitGo] using hv
      have := ih _ _ hv' hag
      simpa [visitGo] using this
    | .obj (.vec len t) =>
      obtain ⟨ts, out', hht, hgo, rfl⟩ := visitGo_vec_inv hv
      have hht' : h' t = .tup ts := by rw [hag t (by simp), hht]
      have := ih _ _ hgo (fun x hx => hag x (by simp [hx]))
      simp [visitGo, hht', this]
    | .obj .nil => simpa [visitGo] using hv
    | .obj (.fwd a b) => simpa [visitGo] using hv
    | .obj (.free a) => simpa [visitGo] using hv
    | .obj (.num a) => simpa [visitGo] using hv
    | .obj (.str a) => simpa [visitGo] using hv
    | .slotList [] => simpa [visitGo] using hv
    | .slotList (a :: rest) =>
      obtain ⟨inner, more, hin, hmo, rfl⟩ := visitGo_cons_inv hv
      have ha : h' a = h a := hag a (by simp)
      have hin' := ih _ _ hin (fun x hx => hag x (by simp [List.mem_append, hx]))
      have hmo' := ih _ _ hmo (fun x hx => hag x (by simp [List.mem_append, hx]))
      rw [← ha] at hin'
      simp [visitGo, bind, hin', hmo']

theorem visitGo_fixup {h h' : Heap} {resolve : Nat → Nat} {T : List Nat}
    (h0 : h 0 = .nil) (h0' : h' 0 = .nil) (hres0 : resolve 0 = 0)
    (hT : ∀ l ∈ T, h' (resolve l) = (h l).fixup resolve) :
    ∀ (fuel : Nat) (c : VisitCall) (out : List Nat),
      visitGo h fuel c = some out → (∀ x ∈ out, x ≠ 0 → x ∈ T) →
      visitGo h' fuel (c.fixup resolve) = some (out.map resolve) := by
  intro fuel
  induction fuel with
  | zero => intro c out hv _; simp [visitGo] at hv
  | succ f ih =>
    intro c out hv hmem
    match c with
    | .obj (.tup slots) =>
      have hv' : visitGo h f (.slotList slots) = some out := by simpa [visitGo] using hv
      have := ih _ _ hv' hmem
      simpa [VisitCall.fixup, HObj.fixup, visitGo] using this
    | .obj (.vec len t) =>
      obtain ⟨ts, out', hht, hgo, rfl⟩ := visitGo_vec_inv hv
      have hne : t ≠ 0 := by
        intro h0t
        rw [h0t, h0] at hht
        cases hht
      have htT : t ∈ T := hmem t (by simp) hne
      have hcorr := hT t htT
      rw [hht] at hcorr
      have hgo' := ih _ _ hgo (fun x hx hx0 => hmem x (by simp [hx]) hx0)
      simp only [VisitCall.fixup] at hgo'
      simp [VisitCall.fixup, HObj.fixup, visitGo, hcorr, hgo']
    | .obj .nil =>
      have hout : out = [] := by simpa [visitGo] using hv.symm
      subst hout
      simp [VisitCall.fixup, HObj.fixup, visitGo]
    | .obj (.fwd a b) =>
      have hout : out = [] := by simpa [visitGo] using hv.symm
      subst hout
      simp [VisitCall.fixup, HObj.fixup, visitGo]
    | .obj (.free a) =>
      have hout : out = [] := by simpa [visitGo] using hv.symm
      subst hout
      simp [VisitCall.fixup, HObj.fixup, visitGo]
    | .obj (.num a) =>
      have hout : out = [] := by simpa [visitGo] using hv.symm
      subst hout
      simp [VisitCall.fixup, HObj.fixup, visitGo]
    | .obj (.str a) =>
      have hout : out = [] := by simpa [visitGo] using hv.symm
      subst hout
      simp [VisitCall.fixup, HObj.fixup, visitGo]
    | .slotList [] =>
      have hout : out = [] := by simpa [visitGo] using hv.symm
      subst hout
      simp [VisitCall.fixup, visitGo]
    | .slotList (a :: rest) =>
      obtain ⟨inner, more, hin, hmo, rfl⟩ := visitGo_cons_inv hv
      have hcor : h' (resolve a) = (h a).fixup resolve := by
        by_cases ha0 : a = 0
        · subst ha0
          rw [hres0, h0', h0]
          rfl
        · exact hT a (hmem a (by simp) ha0)
      have hin' := ih _ _ hin (fun x hx hx0 => hmem x (by simp [hx]) hx0)
      have hmo' := ih _ _ hmo
        (fun x hx hx0 => hmem x (by simp [List.mem_append, hx]) hx0)
      simp only [VisitCall.fixup] at hin' hmo'
      rw [← hcor] at hin'
      simp [VisitCall.fixup, visitGo, bind, hin', hmo']

/-! ## Properties of the root-set mark -/

theorem mapM_option_mem {α β : Type} {f : α → Option β} :
    ∀ {l : List α} {ys : List β}, l.mapM f = some ys →
      (∀ x ∈ l, ∃ y, f x = some y ∧ y ∈ ys) ∧
      (∀ y ∈ ys, ∃ x, x ∈ l ∧ f x = some y) := by
  intro l
  induction l with
  | nil =>
    intro ys h
    simp only [List.mapM_nil, pure, Option.some.injEq] at h
    subst h
    exact ⟨fun x hx => absurd hx (List.not_mem_nil x), fun y hy => absurd hy (List.not_mem_nil y)⟩
  | cons a as ih =>
    intro ys h
    rw [List.mapM_cons] at h
    simp only [bind, Option.bind_eq_some, pure, Option.some.injEq] at h
    obtain ⟨y, hy, ys', hys', rfl⟩ := h
    obtain ⟨ihf, ihb⟩ := ih hys'
    constructor
    · intro x hx
      rcases List.mem_cons.mp hx with rfl | hx
      · exact ⟨y, hy, by simp⟩
      · obtain ⟨y', hy', hmem⟩ := ihf x hx
        exact ⟨y', hy', by simp [hmem]⟩
    · intro z hz
      rcases List.mem_cons.mp hz with rfl | hz
      · exact ⟨a, by simp, hy⟩
      · obtain ⟨x, hx, hfx⟩ := ihb z hz
        exact ⟨x, by simp [hx], hfx⟩

theorem mapM_option_congr {α β : Type} {f g : α → Option β} :
    ∀ {l : List α}, (∀ x ∈ l, f x = g x) → l.mapM f = l.mapM g := by
  intro l
  induction l with
  | nil => intro _; rfl
  | cons a as ih =>
    intro hfg
    rw [List.mapM_cons, List.mapM_cons, hfg a (by simp),
      ih (fun x hx => hfg x (by simp [hx]))]

theorem markLive_inv {h : Heap} {fuel : Nat} {roots live : List Nat}
    (hm : markLive h fuel roots = some live) :
    ∃ seqs, roots.mapM (fun r => (visitObj h fuel (h r)).map (fun l => r :: l)) = some seqs ∧
      live = setOfList (seqs.flatten.filter (fun l => l ≠ 0)) := by
  simp only [markLive, bind, Option.bind_eq_some, pure, Option.some.injEq] at hm
  obtain ⟨seqs, h1, h2⟩ := hm
  exact ⟨seqs, h1, h2.symm⟩

theorem markLive_sorted {h : Heap} {fuel : Nat} {roots live : List Nat}
    (hm : markLive h fuel roots = some live) : live.Sorted (· < ·) := by
  obtain ⟨seqs, _, rfl⟩ := markLive_inv hm
  exact sorted_setOfList _

theorem markLive_mem {h : Heap} {fuel : Nat} {roots live : List Nat}
    (hm : markLive h fuel roots = some live) :
    (∀ r ∈ roots, r ≠ 0 → r ∈ live) ∧
    (∀ l ∈ live, l ≠ 0 ∧ ∀ y ∈ (h l).succs, y ≠ 0 → y ∈ live) := by
  obtain ⟨seqs, hseqs, rfl⟩ := markLive_inv hm
  obtain ⟨hfwd, hbwd⟩ := mapM_option_mem hseqs
  constructor
  · intro r hr hr0
    obtain ⟨seq, hseq, hmem⟩ := hfwd r hr
    cases hvr : visitObj h fuel (h r) with
    | none => rw [hvr] at hseq; cases hseq
    | some out =>
      rw [hvr] at hseq
      simp only [Option.map_some', Option.some.injEq] at hseq
      subst hseq
      rw [mem_setOfList]
      refine List.mem_filter.mpr ⟨?_, by simpa using hr0⟩
      exact List.mem_flatten.mpr ⟨_, hmem, by simp⟩
  · intro l hl
    rw [mem_setOfList] at hl
    obtain ⟨hfl, hl0⟩ := List.mem_filter.mp hl
    obtain ⟨seq, hseqmem, hlseq⟩ := List.mem_flatten.mp hfl
    obtain ⟨r, _, hfr⟩ := hbwd seq hseqmem
    cases hvr : visitObj h fuel (h r) with
    | none => rw [hvr] at hfr; cases hfr
    | some out =>
      rw [hvr] at hfr
      simp only [Option.map_some', Option.some.injEq] at hfr
      subst hfr
      refine ⟨by simpa using hl0, ?_⟩
      intro y hy hy0
      have hyout : y ∈ out := by
        rcases List.mem_cons.mp hlseq with rfl | hlout
        · exact visitObj_succs_subset hvr y hy
        · exact visitGo_closed fuel _ out hvr l hlout y hy
      rw [mem_setOfList]
      refine List.mem_filter.mpr ⟨?_, by simpa using hy0⟩
      exact List.mem_flatten.mpr ⟨_, hseqmem, by simp [hyout]⟩

theorem markLive_congr {h h' : Heap} {fuel : Nat} {roots live : List Nat}
    (hm : markLive h fuel roots = some live)
    (hag : ∀ x ∈ live, h' x = h x) (hag0 : h' 0 = h 0) :
    markLive h' fuel roots = some live := by
  obtain ⟨seqs, hseqs, hlive⟩ := markLive_inv hm
  obtain ⟨hfwd, _⟩ := mapM_option_mem hseqs
  have hmemlive : ∀ seq ∈ seqs, ∀ x ∈ seq, x ≠ 0 → x ∈ live := by
    intro seq hseq x hx hx0
    rw [hlive, mem_setOfList]
    exact List.mem_filter.mpr ⟨List.mem_flatten.mpr ⟨_, hseq, hx⟩, by simpa using hx0⟩
  have : roots.mapM (fun r => (visitObj h' fuel (h' r)).map (fun l => r :: l)) = some seqs := by
    rw [mapM_option_congr (g := fun r => (visitObj h fuel (h r)).map (fun l => r :: l)) ?_]
    · exact hseqs
    · intro r hr
      obtain ⟨seq, hseq, hseqmem⟩ := hfwd r hr
      cases hvr : visitObj h fuel (h r) with
      | none => rw [hvr] at hseq; cases hseq
      | some out =>
        rw [hvr] at hseq
        simp only [Option.map_some', Option.some.injEq] at hseq
        subst hseq
        have hragree : h' r = h r := by
          by_cases hr0 : r = 0
          · subst hr0; exact hag0
          · exact hag r (hmemlive _ hseqmem r (by simp) hr0)
        have hcongr : visitObj h' fuel (h r) = some out := by
          refine visitGo_congr fuel _ out hvr ?_
          intro x hx
          by_cases hx0 : x = 0
          · subst hx0; exact hag0
          · exact hag x (hmemlive _ hseqmem x (by simp [hx]) hx0)
        rw [hragree, hcongr]
        simp [hvr]
  simp only [markLive, this, bind, Option.bind_eq_some, pure]
  exact ⟨seqs, rfl, by rw [hlive]⟩


theorem markLive_fixup {h h' : Heap} {resolve : Nat → Nat} {fuel : Nat}
    {roots live : List Nat}
    (hm : markLive h fuel roots = some live)
    (h0 : h 0 = .nil) (h0' : h' 0 = .nil) (hres0 : resolve 0 = 0)
    (hT : ∀ l ∈ live, h' (resolve l) = (h l).fixup resolve)
    (hmono : ∀ a ∈ live, ∀ b ∈ live, a < b → resolve a < resolve b)
    (hnz : ∀ l ∈ live, resolve l ≠ 0) :
    markLive h' fuel (roots.map resolve) = some (live.map resolve) := by
  obtain ⟨seqs, hseqs, hlive⟩ := markLive_inv hm
  have hmemlive : ∀ seq ∈ seqs, ∀ x ∈ seq, x ≠ 0 → x ∈ live := by
    intro seq hseq x hx hx0
    rw [hlive, mem_setOfList]
    exact List.mem_filter.mpr ⟨List.mem_flatten.mpr ⟨_, hseq, hx⟩, by simpa using hx0⟩
  have haux : ∀ (rs : List Nat) (sq : List (List Nat)),
      rs.mapM (fun r => (visitObj h fuel (h r)).map (fun l => r :: l)) = some sq →
      (∀ seq ∈ sq, ∀ x ∈ seq, x ≠ 0 → x ∈ live) →
      (rs.map resolve).mapM
        (fun r => (visitObj h' fuel (h' r)).map (fun l => r :: l)) =
        some (sq.map (List.map resolve)) := by
    intro rs
    induction rs with
    | nil =>
      intro sq hsq _
      simp only [List.mapM_nil, pure, Option.some.injEq] at hsq
      subst hsq
      rfl
    | cons r rest ih =>
      intro sq hsq hmem
      rw [List.mapM_cons] at hsq
      simp only [bind, Option.bind_eq_some, pure, Option.some.injEq] at hsq
      obtain ⟨seq, hseq, sq', hsq', rfl⟩ := hsq
      cases hvr : visitObj h fuel (h r) with
      | none => rw [hvr] at hseq; cases hseq
      | some out =>
        rw [hvr] at hseq
        simp only [Option.map_some', Option.some.injEq] at hseq
        subst hseq
        have hstep : (visitObj h' fuel (h' (resolve r))).map
            (fun l => resolve r :: l) = some ((r :: out).map resolve) := by
          by_cases hr0 : r = 0
          · subst hr0
            cases fuel with
            | zero => simp [visitObj, visitGo] at hvr
            | succ f =>
              rw [h0] at hvr
              have hout : out = [] := by simpa [visitObj, visitGo] using hvr.symm
              subst hout
              rw [hres0, h0']
              simp [visitObj, visitGo, hres0]
          · have hrlive : r ∈ live :=
              hmem (r :: out) (by simp) r (by simp) hr0
            have hfix := visitGo_fixup h0 h0' hres0 hT fuel (.obj (h r)) out hvr
              (fun x hx hx0 => hmem (r :: out) (by simp) x (by simp [hx]) hx0)
            simp only [VisitCall.fixup] at hfix
            rw [show h' (resolve r) = (h r).fixup resolve from hT r hrlive]
            rw [show visitObj h' fuel ((h r).fixup resolve) =
              visitGo h' fuel (.obj ((h r).fixup resolve)) from rfl, hfix]
            simp
        rw [List.map_cons, List.mapM_cons]
        simp only [bind, Option.bind_eq_some, pure, Option.some.injEq]
        exact ⟨(r :: out).map resolve, hstep,
          sq'.map (List.map resolve),
          ih sq' hsq' (fun s hs x hx hx0 => hmem s (by simp [hs]) x hx hx0), rfl⟩
  have hseqs' := haux roots seqs hseqs hmemlive
  have hflat : (seqs.map (List.map resolve)).flatten = seqs.flatten.map resolve := by
    rw [List.map_flatten]
  have hfilter : (seqs.flatten.map resolve).filter (fun l => l ≠ 0) =
      (seqs.flatten.filter (fun l => l ≠ 0)).map resolve := by
    rw [List.filter_map]
    congr 1
    apply List.filter_congr
    intro x hx
    by_cases hx0 : x = 0
    · subst hx0
      simp [hres0]
    · have hxl : x ∈ live := by
        obtain ⟨seq, hseq, hmemx⟩ := List.mem_flatten.mp hx
        exact hmemlive _ hseq x hmemx hx0
      simp [Function.comp, hx0, hnz x hxl]
  have hset : setOfList ((seqs.flatten.filter (fun l => l ≠ 0)).map resolve) =
      (setOfList (seqs.flatten.filter (fun l => l ≠ 0))).map resolve := by
    apply setOfList_map
    intro a ha b hb hab
    have ha' : a ∈ live := by
      rw [hlive, mem_setOfList]; exact ha
    have hb' : b ∈ live := by
      rw [hlive, mem_setOfList]; exact hb
    exact hmono a ha' b hb' hab
  simp only [markLive, hseqs', bind, Option.bind_eq_some, pure, Option.some.injEq]
  refine ⟨seqs.map (List.map resolve), rfl, ?_⟩
  rw [hflat, hfilter, hset, hlive]



/-! ## The linear heap walk over a tiled region -/

theorem walkUpd_tiling {f : Nat → HObj → HObj × List MEvent} :
    ∀ (starts : List Nat) (h : Heap) (loc stop fuel : Nat) (evs : List MEvent),
      Tiling h starts loc stop →
      (∀ x ∈ starts, 0 < (h x).size) →
      starts.length < fuel →
      walkUpd (fun _ l o => f l o) fuel loc stop h evs =
        some (fun x => if x ∈ starts then (f x (h x)).1 else h x,
          evs ++ (starts.map (fun x => (f x (h x)).2)).flatten) := by
  intro starts
  induction starts with
  | nil =>
    intro h loc stop fuel evs ht _ hfuel
    have hls : loc = stop := ht
    subst hls
    cases fuel with
    | zero => omega
    | succ f' =>
      simp only [walkUpd]
      rw [if_neg (lt_irrefl loc)]
      refine congrArg some (Prod.ext ?_ ?_)
      · funext x
        simp
      · simp
  | cons a rest ih =>
    intro h loc stop fuel evs ht hsz hfuel
    obtain ⟨rfl, hlt, hrest⟩ := ht
    cases fuel with
    | zero => simp at hfuel
    | succ f' =>
      simp only [walkUpd]
      rw [if_pos hlt]
      have hbound := Tiling.mem_bounds hrest
      have hne : ∀ x ∈ rest, x ≠ a := by
        intro x hx
        have h1 := hbound x hx
        have h2 := hsz a (by simp)
        omega
      have hagree : ∀ x ∈ rest,
          Function.update h a (f a (h a)).1 x = h x := by
        intro x hx
        exact Function.update_noteq (hne x hx) _ h
      have hrest' : Tiling (Function.update h a (f a (h a)).1) rest
          (a + (h a).size) stop := by
        refine Tiling.congr hrest ?_
        intro x hx
        rw [hagree x hx]
      have hsz' : ∀ x ∈ rest,
          0 < ((Function.update h a (f a (h a)).1) x).size := by
        intro x hx
        rw [hagree x hx]
        exact hsz x (by simp [hx])
      rw [ih _ (a + (h a).size) stop f' (evs ++ (f a (h a)).2) hrest' hsz'
        (by simpa using Nat.lt_of_succ_lt_succ hfuel)]
      have hheap : (fun x => if x ∈ rest
            then (f x (Function.update h a (f a (h a)).1 x)).1
            else Function.update h a (f a (h a)).1 x) =
          fun x => if x ∈ a :: rest then (f x (h x)).1 else h x := by
        funext x
        by_cases hxr : x ∈ rest
        · rw [if_pos hxr, hagree x hxr, if_pos (by simp [hxr])]
        · by_cases hxa : x = a
          · subst hxa
            rw [if_neg hxr, if_pos (by simp), Function.update_same]
          · rw [if_neg hxr, if_neg (by simp [List.mem_cons, hxa, hxr]),
              Function.update_noteq hxa]
      have hmapcg : List.map
            (fun x => (f x (Function.update h a (f a (h a)).1 x)).2) rest =
          List.map (fun x => (f x (h x)).2) rest :=
        List.map_congr_left (fun x hx => by rw [hagree x hx])
      rw [hheap, hmapcg]
      simp [List.append_assoc]


/-! ## Characterization of the mark-compact slide -/

theorem slideTargets_fst {h : Heap} :
    ∀ (ls : List Nat) (t0 : Nat), (slideTargets h ls t0).map Prod.fst = ls := by
  intro ls
  induction ls with
  | nil => intro t0; rfl
  | cons l ls ih => intro t0; simp [slideTargets, ih]

theorem slideTargets_tgt_ge {h : Heap} :
    ∀ (ls : List Nat) (t0 : Nat) (p : Nat × Nat),
      p ∈ slideTargets h ls t0 → t0 ≤ p.2 := by
  intro ls
  induction ls with
  | nil => intro t0 p hp; cases hp
  | cons l ls ih =>
    intro t0 p hp
    rcases List.mem_cons.mp hp with rfl | hp
    · exact le_refl _
    · have := ih _ p hp
      omega

theorem slideTargets_append {h : Heap} :
    ∀ (ks ls : List Nat) (t0 : Nat),
      slideTargets h (ks ++ ls) t0 =
        slideTargets h ks t0 ++ slideTargets h ls (t0 + sizeSum h ks) := by
  intro ks
  induction ks with
  | nil => intro ls t0; simp [slideTargets, sizeSum]
  | cons k ks ih =>
    intro ls t0
    simp only [List.cons_append, slideTargets]
    rw [show ks.append ls = ks ++ ls from rfl, ih]
    have hb : t0 + (h k).size + sizeSum h ks = t0 + sizeSum h (k :: ks) := by
      simp only [sizeSum, List.map_cons, List.sum_cons]
      omega
    rw [hb]

theorem SlideOK.mem_gt {h0 : Heap} :
    ∀ {ls : List Nat} {t : Nat}, SlideOK h0 ls t → ∀ l ∈ ls, t < l := by
  intro ls
  induction ls with
  | nil => intro t _ l hl; cases hl
  | cons a as ih =>
    intro t hok l hl
    obtain ⟨ha, has⟩ := hok
    rcases List.mem_cons.mp hl with rfl | hl
    · exact ha
    · have := ih has l hl
      omega

theorem applySlides_eval {h0 : Heap} :
    ∀ (srcs : List Nat) (t0 : Nat) (h : Heap),
      SlideOK h0 srcs t0 →
      (∀ l ∈ srcs, 0 < (h0 l).size) →
      (∀ l ∈ srcs, h l = h0 l) →
      ∀ x, (applySlides h (slideTargets h0 srcs t0)) x =
        (match (slideTargets h0 srcs t0).find? (fun p => p.2 == x) with
          | some p => h0 p.1
          | none => h x) := by
  intro srcs
  induction srcs with
  | nil => intro t0 h _ _ _ x; rfl
  | cons l ls ih =>
    intro t0 h hok hsz hag x
    obtain ⟨hlt, hok'⟩ := hok
    have hmem_gt := SlideOK.mem_gt hok'
    have hag' : ∀ l' ∈ ls, Function.update h t0 (h l) l' = h0 l' := by
      intro l' hl'
      have : t0 < l' := by
        have := hmem_gt l' hl'
        omega
      rw [Function.update_noteq (by omega) _ h]
      exact hag l' (by simp [hl'])
    have hstep : applySlides h (slideTargets h0 (l :: ls) t0) =
        applySlides (Function.update h t0 (h l))
          (slideTargets h0 ls (t0 + (h0 l).size)) := by
      simp only [slideTargets, applySlides]
    rw [hstep, ih (t0 + (h0 l).size) _ hok'
      (fun a ha => hsz a (by simp [ha])) hag' x]
    simp only [slideTargets, List.find?_cons]
    by_cases hx : t0 = x
    · subst hx
      simp only [beq_self_eq_true]
      have hnone : (slideTargets h0 ls (t0 + (h0 l).size)).find?
          (fun p => p.2 == t0) = none := by
        apply List.find?_eq_none.mpr
        intro p hp
        have h1 := slideTargets_tgt_ge _ _ p hp
        have h2 := hsz l (by simp)
        simp only [beq_iff_eq]
        omega
      rw [hnone]
      rw [Function.update_same]
      exact hag l (by simp)
    · have : ((l, t0).2 == x) = false := by
        simp [hx]
      rw [this]
      cases hfind : (slideTargets h0 ls (t0 + (h0 l).size)).find?
          (fun p => p.2 == x) with
      | some p => rfl
      | none =>
        rw [Function.update_noteq (by omega) _ h]


theorem survivorsOf_cons_pos {live : List Nat} {a : Nat} {rest : List Nat}
    (h : live.contains a = true) :
    survivorsOf live (a :: rest) = a :: survivorsOf live rest := by
  unfold survivorsOf
  rw [List.filter_cons, h]
  simp

theorem survivorsOf_cons_neg {live : List Nat} {a : Nat} {rest : List Nat}
    (h : live.contains a = false) :
    survivorsOf live (a :: rest) = survivorsOf live rest := by
  unfold survivorsOf
  rw [List.filter_cons, h]
  simp

theorem compactGo_slide {h0 : Heap} {live : List Nat} {oldTop : Nat} :
    ∀ (starts : List Nat) (h : Heap) (from_ top fuel : Nat) (fwd : List (Nat × Nat)),
      Tiling h0 starts from_ oldTop →
      (∀ x ∈ starts, 0 < (h0 x).size) →
      (∀ x, from_ ≤ x → h x = h0 x) →
      top < from_ →
      starts.length < fuel →
      Mem.compactGo live oldTop fuel from_ h top fwd =
        some (applySlides h (slideTargets h0 (survivorsOf live starts) top),
          (top + sizeSum h0 (survivorsOf live starts),
          fwd ++ slideTargets h0 (survivorsOf live starts) top)) := by
  intro starts
  induction starts with
  | nil =>
    intro h from_ top fuel fwd ht hsz hag htop hfuel
    have heq : from_ = oldTop := ht
    subst heq
    cases fuel with
    | zero => omega
    | succ f' =>
      simp only [Mem.compactGo]
      rw [if_neg (by omega : ¬ from_ < from_)]
      simp [survivorsOf, slideTargets, applySlides, sizeSum]
  | cons a rest ih =>
    intro h from_ top fuel fwd ht hsz hag htop hfuel
    obtain ⟨rfl, hlt, hrest⟩ := ht
    cases fuel with
    | zero => simp at hfuel
    | succ f' =>
      have hha : h a = h0 a := hag a (le_refl _)
      have hszpos : 0 < (h0 a).size := hsz a (by simp)
      have htopne : top ≠ oldTop := by omega
      simp only [Mem.compactGo]
      rw [if_pos hlt]
      cases hal : live.contains a with
      | true =>
        rw [if_pos rfl]
        rw [if_pos htopne]
        have hag' : ∀ x, a + (h a).size ≤ x →
            Function.update h top (h a) x = h0 x := by
          intro x hx
          rw [Function.update_noteq (by omega) _ h]
          exact hag x (by omega)
        have hrest' : Tiling h0 rest (a + (h a).size) oldTop := by
          rw [hha]
          exact hrest
        have := ih (Function.update h top (h a)) (a + (h a).size)
          (top + (h a).size) f' (fwd ++ [(a, top)]) hrest'
          (fun x hx => hsz x (by simp [hx])) hag' (by omega)
          (by simpa using Nat.lt_of_succ_lt_succ hfuel)
        rw [this]
        rw [survivorsOf_cons_pos hal]
        simp only [slideTargets, applySlides, sizeSum, List.map_cons, List.sum_cons, hha]
        rw [List.append_assoc]
        simp [Nat.add_assoc]
      | false =>
        rw [if_neg (by simp : ¬ false = true)]
        rw [if_neg htopne]
        have := ih h (a + (h a).size) top f' fwd
          (by rw [hha]; exact hrest)
          (fun x hx => hsz x (by simp [hx])) (fun x hx => hag x (by omega)) (by omega)
          (by simpa using Nat.lt_of_succ_lt_succ hfuel)
        rw [this, survivorsOf_cons_neg hal]


theorem keepLenOf_cons_pos {live : List Nat} {a : Nat} {rest : List Nat}
    (h : live.contains a = true) :
    keepLenOf live (a :: rest) = keepLenOf live rest + 1 := by
  unfold keepLenOf
  rw [List.takeWhile_cons, h]
  simp

theorem keepLenOf_cons_neg {live : List Nat} {a : Nat} {rest : List Nat}
    (h : live.contains a = false) :
    keepLenOf live (a :: rest) = 0 := by
  unfold keepLenOf
  rw [List.takeWhile_cons, h]
  simp

theorem compactGo_spec {h : Heap} {live : List Nat} {oldTop : Nat} :
    ∀ (starts : List Nat) (from_ fuel : Nat),
      Tiling h starts from_ oldTop →
      (∀ x ∈ starts, 0 < (h x).size) →
      starts.length < fuel →
      Mem.compactGo live oldTop fuel from_ h oldTop [] =
        some (applySlides h ((slideTargets h (survivorsOf live starts) from_).drop
            (keepLenOf live starts)),
          (from_ + sizeSum h (survivorsOf live starts),
          (slideTargets h (survivorsOf live starts) from_).drop (keepLenOf live starts))) := by
  intro starts
  induction starts with
  | nil =>
    intro from_ fuel ht hsz hfuel
    have heq : from_ = oldTop := ht
    subst heq
    cases fuel with
    | zero => omega
    | succ f' =>
      simp only [Mem.compactGo]
      rw [if_neg (by omega : ¬ from_ < from_)]
      simp [survivorsOf, keepLenOf, slideTargets, sizeSum, applySlides]
  | cons a rest ih =>
    intro from_ fuel ht hsz hfuel
    obtain ⟨rfl, hlt, hrest⟩ := ht
    cases fuel with
    | zero => simp at hfuel
    | succ f' =>
      have hszpos : 0 < (h a).size := hsz a (by simp)
      simp only [Mem.compactGo]
      rw [if_pos hlt]
      cases hal : live.contains a with
      | true =>
        rw [if_pos rfl]
        rw [if_neg (by omega : ¬ oldTop ≠ oldTop)]
        rw [ih (a + (h a).size) f' hrest (fun x hx => hsz x (by simp [hx]))
          (by simpa using Nat.lt_of_succ_lt_succ hfuel)]
        rw [survivorsOf_cons_pos hal, keepLenOf_cons_pos hal]
        simp only [slideTargets, sizeSum, List.map_cons, List.sum_cons,
          List.drop_succ_cons]
        rw [Nat.add_assoc]
      | false =>
        rw [if_neg (by simp : ¬ false = true)]
        simp only [if_true]
        rw [compactGo_slide rest h (a + (h a).size) a f' [] hrest
          (fun x hx => hsz x (by simp [hx])) (fun x _ => rfl) (by omega)
          (by simpa using Nat.lt_of_succ_lt_succ hfuel)]
        rw [survivorsOf_cons_neg hal, keepLenOf_cons_neg hal]
        simp only [List.drop_zero, List.nil_append]


/-! ## Example states used by the boundary claims -/

/-! ## Supporting lemmas for the traversal claim -/

theorem visitObj_out_of_no_succs {h : Heap} {f : Nat} {o : HObj} {out : List Nat}
    (hv : visitGo h f (.obj o) = some out) (hs : o.succs = []) : out = [] := by
  cases f with
  | zero => simp [visitGo] at hv
  | succ f' =>
    cases o with
    | tup slots =>
      have hsl : slots = [] := by simpa [HObj.succs] using hs
      subst hsl
      cases f' with
      | zero => simp [visitGo] at hv
      | succ f'' => simpa [visitGo] using hv.symm
    | vec len t => simp [HObj.succs] at hs
    | nil => simpa [visitGo] using hv.symm
    | fwd a b => simpa [visitGo] using hv.symm
    | free a => simpa [visitGo] using hv.symm
    | num a => simpa [visitGo] using hv.symm
    | str a => simpa [visitGo] using hv.symm

theorem visitGo_slotList_leaves {h : Heap} :
    ∀ {f : Nat} {ls out : List Nat},
      visitGo h f (.slotList ls) = some out →
      (∀ s ∈ ls, (h s).succs = []) →
      out = ls := by
  intro f
  induction f with
  | zero => intro ls out hv _; simp [visitGo] at hv
  | succ f' ih =>
    intro ls out hv hleaf
    cases ls with
    | nil => simpa [visitGo] using hv.symm
    | cons a rest =>
      obtain ⟨inner, more, hin, hmo, rfl⟩ := visitGo_cons_inv hv
      have h1 : inner = [] := visitObj_out_of_no_succs hin (hleaf a (by simp))
      have h2 : more = rest := ih hmo (fun s hs => hleaf s (by simp [hs]))
      rw [h1, h2]
      simp


/-! ## Supporting lemmas for the split claim -/

theorem splitPairs_go_length (sep : Nat) :
    ∀ (post : List Nat) (i last : Nat),
      (Str.splitPairs.go sep post i last).length = post.count sep + 1 := by
  intro post
  induction post with
  | nil => intro i last; simp [Str.splitPairs.go]
  | cons c rest ih =>
    intro i last
    by_cases hc : c = sep
    · subst hc
      simp [Str.splitPairs.go, ih, List.count_cons]
    · simp [Str.splitPairs.go, hc, ih, List.count_cons]

theorem modifyHead_nil_append (L : List (List Nat)) :
    List.modifyHead (fun seg => [] ++ seg) L = L := by
  cases L <;> simp

theorem splitPairs_go_segments (sep : Nat) :
    ∀ (post full : List Nat) (i last : Nat),
      full.drop i = post → last ≤ i →
      (Str.splitPairs.go sep post i last).map
          (fun p => (full.drop p.1).take (p.2 - p.1)) =
        (post.splitOnP (fun c => c == sep)).modifyHead
          (fun seg => (full.drop last).take (i - last) ++ seg) := by
  intro post
  induction post with
  | nil =>
    intro full i last hdrop hle
    simp [Str.splitPairs.go, List.splitOnP_nil]
  | cons c rest ih =>
    intro full i last hdrop hle
    have hget : full[i]? = some c := by
      rw [← List.head?_drop, hdrop]
      rfl
    have hdrop' : full.drop (i + 1) = rest := by
      have h1 : full.drop (i + 1) = (full.drop i).drop 1 := by
        rw [List.drop_drop]
      rw [h1, hdrop]
      rfl
    have htake : (full.drop last).take (i + 1 - last) =
        (full.drop last).take (i - last) ++ [c] := by
      have h1 : i + 1 - last = (i - last) + 1 := by omega
      rw [h1, List.take_succ]
      have h2 : (full.drop last)[i - last]? = full[last + (i - last)]? := by
        rw [List.getElem?_drop]
      rw [h2, show last + (i - last) = i by omega, hget]
      rfl
    by_cases hc : c = sep
    · subst hc
      have hrec := ih full (i + 1) (i + 1) hdrop' (le_refl _)
      rw [show i + 1 - (i + 1) = 0 from by omega] at hrec
      simp only [List.take_zero] at hrec
      rw [modifyHead_nil_append] at hrec
      simp only [Str.splitPairs.go, List.splitOnP_cons, beq_self_eq_true, if_true,
        List.map_cons, hrec]
      cases hsp : rest.splitOnP (fun x => x == c) with
      | nil => exact absurd hsp (List.splitOnP_ne_nil _ _)
      | cons s ss => simp
    · have hrec := ih full (i + 1) last hdrop' (by omega)
      simp only [Str.splitPairs.go, if_neg hc, hrec]
      rw [List.splitOnP_cons]
      have hb : (c == sep) = false := by simp [hc]
      rw [hb]
      simp only [Bool.false_eq_true, if_false]
      rw [List.modifyHead_modifyHead]
      congr 1
      funext seg
      simp only [Function.comp, htake, List.append_assoc, List.singleton_append]


/-! ## Supporting lemmas for the self-assignment claim -/

theorem list_set_getD_self : ∀ {l : List Nat} {i : Nat}, i < l.length →
    l.set i (l.getD i 0) = l := by
  intro l
  induction l with
  | nil => intro i h; cases h
  | cons a as ih =>
    intro i h
    cases i with
    | zero => simp
    | succ j =>
      simp only [List.set_cons_succ, List.getD_cons_succ]
      rw [ih (by simpa using h)]


/-! ## Supporting lemmas for the idempotence claim -/

theorem natList_contains_iff {l : List Nat} {x : Nat} :
    l.contains x = true ↔ x ∈ l := by
  induction l with
  | nil => simp
  | cons a as ih => simp [List.contains_eq_any_beq]

theorem applySlides_not_target : ∀ (ps : List (Nat × Nat)) (h : Heap) (x : Nat),
    x ∉ ps.map Prod.snd → applySlides h ps x = h x := by
  intro ps
  induction ps with
  | nil => intro h x _; rfl
  | cons p ps ih =>
    intro h x hx
    simp only [List.map_cons, List.mem_cons, not_or] at hx
    obtain ⟨q, t⟩ := p
    show applySlides (Function.update h t (h q)) ps x = h x
    rw [ih _ x hx.2]
    exact Function.update_noteq hx.1 _ _

theorem slideTargets_of_tiling {h : Heap} : ∀ {P : List Nat} {t0 stop : Nat},
    Tiling h P t0 stop → slideTargets h P t0 = P.map (fun x => (x, x)) := by
  intro P
  induction P with
  | nil => intro t0 stop _; rfl
  | cons l ls ih =>
    intro t0 stop ht
    obtain ⟨rfl, _, hrest⟩ := ht
    simp only [slideTargets, List.map_cons, List.cons.injEq]
    exact ⟨trivial, ih hrest⟩

theorem Tiling.append_split {h : Heap} : ∀ {xs ys : List Nat} {loc stop : Nat},
    Tiling h (xs ++ ys) loc stop → (∀ x ∈ xs, 0 < (h x).size) →
    Tiling h xs loc (loc + sizeSum h xs) ∧ Tiling h ys (loc + sizeSum h xs) stop := by
  intro xs
  induction xs with
  | nil =>
    intro ys loc stop ht _
    constructor
    · show loc = loc + sizeSum h []
      simp [sizeSum]
    · simpa [sizeSum] using ht
  | cons l ls ih =>
    intro ys loc stop ht hpos
    obtain ⟨rfl, hlt, hrest⟩ := ht
    obtain ⟨h1, h2⟩ := ih hrest (fun x hx => hpos x (by simp [hx]))
    have hsz0 : 0 < (h l).size := hpos l (by simp)
    have hsum : l + (h l).size + sizeSum h ls = l + sizeSum h (l :: ls) := by
      simp only [sizeSum, List.map_cons, List.sum_cons]
      omega
    constructor
    · refine ⟨rfl, ?_, ?_⟩
      · simp only [sizeSum, List.map_cons, List.sum_cons]
        omega
      · rw [← hsum]
        exact h1
    · rw [← hsum]
      exact h2

theorem Tiling.pairwise_spread {h : Heap} : ∀ {starts : List Nat} {loc stop : Nat},
    Tiling h starts loc stop →
    starts.Pairwise (fun a b => a + (h a).size ≤ b) := by
  intro starts
  induction starts with
  | nil => intro _ _ _; exact List.Pairwise.nil
  | cons l ls ih =>
    intro loc stop ht
    obtain ⟨rfl, hlt, hrest⟩ := ht
    refine List.Pairwise.cons ?_ (ih hrest)
    intro b hb
    exact (Tiling.mem_bounds hrest b hb).1

theorem SlideOK_of_pairwise {h : Heap} : ∀ (srcs : List Nat) (t0 : Nat),
    srcs.Pairwise (fun a b => a + (h a).size ≤ b) →
    (∀ a ∈ srcs, t0 < a) → SlideOK h srcs t0 := by
  intro srcs
  induction srcs with
  | nil => intro t0 _ _; trivial
  | cons l ls ih =>
    intro t0 hpw hlt
    obtain ⟨hhead, htail⟩ := List.pairwise_cons.mp hpw
    refine ⟨hlt l (by simp), ih _ htail ?_⟩
    intro a ha
    have h1 := hhead a ha
    have h2 := hlt l (by simp)
    omega

theorem lookup_pair_self : ∀ {ps : List (Nat × Nat)} {p : Nat × Nat},
    (ps.map Prod.fst).Pairwise (fun a b => a < b) → p ∈ ps →
    List.lookup p.1 ps = some p.2 := by
  intro ps
  induction ps with
  | nil => intro p _ hp; cases hp
  | cons q qs ih =>
    intro p hpw hp
    obtain ⟨k, v⟩ := q
    rw [List.map_cons, List.pairwise_cons] at hpw
    rcases List.mem_cons.mp hp with rfl | hp
    · simp [List.lookup]
    · have hgt := hpw.1 p.1 (List.mem_map_of_mem Prod.fst hp)
      dsimp only at hgt
      have hne : (p.1 == k) = false := by
        simp only [beq_eq_false_iff_ne, ne_eq]
        omega
      simp only [List.lookup, hne]
      exact ih hpw.2 hp

theorem lookup_none_of_not_key : ∀ {ps : List (Nat × Nat)} {x : Nat},
    (∀ q ∈ ps, x ≠ q.1) → List.lookup x ps = none := by
  intro ps
  induction ps with
  | nil => intro x _; rfl
  | cons q qs ih =>
    intro x hx
    obtain ⟨k, v⟩ := q
    have hne : (x == k) = false := by
      simp only [beq_eq_false_iff_ne, ne_eq]
      exact hx (k, v) (by simp)
    simp only [List.lookup, hne]
    exact ih fun q hq => hx q (by simp [hq])

theorem find?_snd_self : ∀ {ps : List (Nat × Nat)} {p : Nat × Nat},
    (ps.map Prod.snd).Pairwise (fun a b => a < b) → p ∈ ps →
    ps.find? (fun q => q.2 == p.2) = some p := by
  intro ps
  induction ps with
  | nil => intro p _ hp; cases hp
  | cons q qs ih =>
    intro p hpw hp
    rw [List.map_cons, List.pairwise_cons] at hpw
    rcases List.mem_cons.mp hp with rfl | hp
    · rw [List.find?_cons_of_pos _ (by simp)]
    · have hlt := hpw.1 p.2 (List.mem_map_of_mem Prod.snd hp)
      rw [List.find?_cons_of_neg _ (by simp only [beq_iff_eq]; omega)]
      exact ih hpw.2 hp

theorem pairs_mono : ∀ {ps : List (Nat × Nat)},
    (ps.map Prod.fst).Pairwise (fun a b => a < b) →
    (ps.map Prod.snd).Pairwise (fun a b => a < b) →
    ∀ p ∈ ps, ∀ q ∈ ps, p.1 < q.1 → p.2 < q.2 := by
  intro ps
  induction ps with
  | nil => intro _ _ p hp; cases hp
  | cons r rs ih =>
    intro h1 h2 p hp q hq hlt
    rw [List.map_cons, List.pairwise_cons] at h1 h2
    rcases List.mem_cons.mp hp with h3 | h3
    · rcases List.mem_cons.mp hq with h4 | h4
      · rw [h3, h4] at hlt
        omega
      · rw [h3]
        exact h2.1 q.2 (List.mem_map_of_mem Prod.snd h4)
    · rcases List.mem_cons.mp hq with h4 | h4
      · have h5 := h1.1 p.1 (List.mem_map_of_mem Prod.fst h3)
        rw [h4] at hlt
        omega
      · exact ih h1.2 h2.2 p h3 q h4 hlt

theorem tiling_slideTargets {h h' : Heap} : ∀ (S : List Nat) (t0 : Nat),
    (∀ l ∈ S, 0 < (h l).size) →
    (∀ p ∈ slideTargets h S t0, (h' p.2).size = (h p.1).size) →
    Tiling h' ((slideTargets h S t0).map Prod.snd) t0 (t0 + sizeSum h S) := by
  intro S
  induction S with
  | nil =>
    intro t0 _ _
    show t0 = t0 + sizeSum h []
    simp [sizeSum]
  | cons l ls ih =>
    intro t0 hpos hsz
    simp only [slideTargets, List.map_cons]
    have h0 := hpos l (by simp)
    refine ⟨rfl, ?_, ?_⟩
    · simp only [sizeSum, List.map_cons, List.sum_cons]
      omega
    · have hsz0 : (h' t0).size = (h l).size := hsz (l, t0) (by simp [slideTargets])
      show Tiling h' _ (t0 + (h' t0).size) _
      rw [hsz0]
      have hrec := ih (t0 + (h l).size) (fun x hx => hpos x (by simp [hx]))
        (fun p hp => hsz p (by simp [slideTargets, hp]))
      have hstop : t0 + (h l).size + sizeSum h ls = t0 + sizeSum h (l :: ls) := by
        simp only [sizeSum, List.map_cons, List.sum_cons]
        omega
      rw [← hstop]
      exact hrec

theorem sizeSum_targets {h h' : Heap} : ∀ (S : List Nat) (t0 : Nat),
    (∀ p ∈ slideTargets h S t0, (h' p.2).size = (h p.1).size) →
    sizeSum h' ((slideTargets h S t0).map Prod.snd) = sizeSum h S := by
  intro S
  induction S with
  | nil => intro t0 _; rfl
  | cons l ls ih =>
    intro t0 hsz
    have h1 : (h' t0).size = (h l).size := hsz (l, t0) (by simp [slideTargets])
    have h2 := ih (t0 + (h l).size) (fun p hp => hsz p (by simp [slideTargets, hp]))
    simp only [slideTargets, List.map_cons, sizeSum, List.sum_cons] at h2 ⊢
    omega

theorem sizeSum_sublist_le {h : Heap} {m l : List Nat} (hs : m.Sublist l) :
    sizeSum h m ≤ sizeSum h l := by
  induction hs with
  | slnil => exact Nat.le_refl _
  | cons a _ ih =>
    simp only [sizeSum, List.map_cons, List.sum_cons] at ih ⊢
    omega
  | cons₂ a _ ih =>
    simp only [sizeSum, List.map_cons, List.sum_cons] at ih ⊢
    omega

theorem sizeSum_sublist_eq {h : Heap} : ∀ {m l : List Nat}, m.Sublist l →
    (∀ x ∈ l, 0 < (h x).size) → sizeSum h m = sizeSum h l → m = l := by
  intro m l hs
  induction hs with
  | slnil => intro _ _; rfl
  | cons a hs ih =>
    intro hpos hsum
    exfalso
    have hle := sizeSum_sublist_le (h := h) hs
    have ha := hpos a (by simp)
    simp only [sizeSum] at hle hsum
    simp only [List.map_cons, List.sum_cons] at hsum
    omega
  | cons₂ a hs ih =>
    intro hpos hsum
    simp only [sizeSum, List.map_cons, List.sum_cons] at hsum
    rw [ih (fun x hx => hpos x (by simp [hx])) (by simp only [sizeSum]; omega)]

theorem slideTargets_length {h : Heap} (S : List Nat) (t0 : Nat) :
    (slideTargets h S t0).length = S.length := by
  calc (slideTargets h S t0).length
      = ((slideTargets h S t0).map Prod.fst).length := (List.length_map _ _).symm
    _ = S.length := by rw [slideTargets_fst]

theorem survivorsOf_decomp (live starts : List Nat) :
    survivorsOf live starts =
      starts.takeWhile (fun l => live.contains l) ++
        (starts.dropWhile (fun l => live.contains l)).filter (fun l => live.contains l) := by
  unfold survivorsOf
  conv_lhs => rw [← List.takeWhile_append_dropWhile (p := fun l => live.contains l)
    (l := starts)]
  rw [List.filter_append]
  congr 1
  apply List.filter_eq_self.mpr
  intro a ha
  exact List.mem_takeWhile_imp ha


/-- The slide targets of objects of positive size are strictly
increasing, so the slide preserves the relative order of the
survivors. -/
theorem slideTargets_snd_pairwise {h : Heap} :
    ∀ (ls : List Nat) (t0 : Nat), (∀ l ∈ ls, 0 < (h l).size) →
      ((slideTargets h ls t0).map Prod.snd).Pairwise (fun a b => a < b) := by
  intro ls
  induction ls with
  | nil => intro t0 _; simp [slideTargets]
  | cons l ls ih =>
    intro t0 hsz
    simp only [slideTargets, List.map_cons]
    refine List.Pairwise.cons ?_ (ih _ (fun x hx => hsz x (List.mem_cons_of_mem l hx)))
    intro b hb
    obtain ⟨p, hp, rfl⟩ := List.mem_map.mp hb
    have h1 := slideTargets_tgt_ge ls (t0 + (h l).size) p hp
    have h2 := hsz l (List.mem_cons_self l ls)
    omega

theorem dropWhile_head_false {p : Nat → Bool} : ∀ {l : List Nat} {d : Nat} {t : List Nat},
    l.dropWhile p = d :: t → p d = false := by
  intro l
  induction l with
  | nil => intro d t h; cases h
  | cons a as ih =>
    intro d t h
    rw [List.dropWhile_cons] at h
    by_cases hpa : p a = true
    · rw [if_pos hpa] at h
      exact ih h
    · rw [if_neg hpa] at h
      injection h with h1 h2
      subst h1
      simpa using hpa

theorem takeWhile_eq_self_of_forall {p : Nat → Bool} : ∀ {l : List Nat},
    (∀ a ∈ l, p a = true) → l.takeWhile p = l := by
  intro l
  induction l with
  | nil => intro _; rfl
  | cons a as ih =>
    intro hall
    rw [List.takeWhile_cons, if_pos (hall a (by simp))]
    rw [ih fun x hx => hall x (by simp [hx])]

/-- Positions of the surviving cells after the first dead cell lie
strictly above the rewound `top`. -/
theorem rest_bounds {h : Heap} {live starts : List Nat} {oldTop : Nat}
    (hti : Tiling h starts 1 oldTop)
    (hsz : ∀ x ∈ starts, 0 < (h x).size) :
    ∀ a ∈ (starts.dropWhile (fun l => live.contains l)).filter (fun l => live.contains l),
      1 + sizeSum h (starts.takeWhile (fun l => live.contains l)) < a := by
  have hsplit := @Tiling.append_split h (starts.takeWhile (fun l => live.contains l))
    (starts.dropWhile (fun l => live.contains l)) 1 oldTop
    (by rw [List.takeWhile_append_dropWhile]; exact hti)
    (fun x hx => hsz x ((List.takeWhile_prefix _).sublist.subset hx))
  obtain ⟨htw, hdw⟩ := hsplit
  intro a ha
  cases hdw_eq : starts.dropWhile (fun l => live.contains l) with
  | nil => rw [hdw_eq] at ha; cases ha
  | cons d dtail =>
    rw [hdw_eq] at ha hdw
    have hpd : (live.contains d) = false := dropWhile_head_false hdw_eq
    obtain ⟨hd, hlt, hdtail⟩ := hdw
    rw [List.filter_cons, hpd] at ha
    rw [if_neg (by simp)] at ha
    have hmem : a ∈ dtail := List.mem_of_mem_filter ha
    have hbounds := Tiling.mem_bounds hdtail a hmem
    have hdin : d ∈ starts := by
      have : d ∈ starts.dropWhile (fun l => live.contains l) := by
        rw [hdw_eq]; simp
      exact (List.dropWhile_sublist _).subset this
    have hdpos : 0 < (h d).size := hsz d hdin
    omega

/-- The central facts about one compaction slide: for every source and
target pair, the forwarding side table resolves the source to the
target and the slid heap holds the old object of the source at the
target; locations outside the slid survivors resolve to themselves,
and location 0 is untouched. -/
theorem slide_core_gen {h : Heap} {tw rest : List Nat} {t0 : Nat}
    (htw : Tiling h tw 1 t0)
    (hpos_rest : ∀ x ∈ rest, 0 < (h x).size)
    (hrest_spread : rest.Pairwise (fun a b => a + (h a).size ≤ b))
    (hrest_gt : ∀ a ∈ rest, t0 < a) :
    (∀ q ∈ slideTargets h (tw ++ rest) 1,
        locAfterMoveCompact (slideTargets h rest t0) q.1 = q.2 ∧
        applySlides h (slideTargets h rest t0) q.2 = h q.1) ∧
    (∀ x, x ∉ rest → locAfterMoveCompact (slideTargets h rest t0) x = x) ∧
    (∀ x, x < 1 → applySlides h (slideTargets h rest t0) x = h x) := by
  have hsum : 1 + sizeSum h tw = t0 := Tiling.sum htw
  have hSOK : SlideOK h rest t0 := SlideOK_of_pairwise rest t0 hrest_spread hrest_gt
  have heval := applySlides_eval rest t0 h hSOK hpos_rest (fun _ _ => rfl)
  have htwslide : slideTargets h tw 1 = tw.map (fun x => (x, x)) := slideTargets_of_tiling htw
  have hsplit : slideTargets h (tw ++ rest) 1 =
      slideTargets h tw 1 ++ slideTargets h rest t0 := by
    rw [slideTargets_append, hsum]
  have hrest_snd : ((slideTargets h rest t0).map Prod.snd).Pairwise (fun a b => a < b) :=
    slideTargets_snd_pairwise rest t0 hpos_rest
  have hrest_fst : (slideTargets h rest t0).map Prod.fst = rest := slideTargets_fst _ _
  have hrest_keys_lt : ((slideTargets h rest t0).map Prod.fst).Pairwise (fun a b => a < b) := by
    rw [hrest_fst]
    refine hrest_spread.imp_of_mem ?_
    intro a b ha _ hr
    have := hpos_rest a ha
    omega
  refine ⟨?_, ?_, ?_⟩
  · intro q hq
    rw [hsplit] at hq
    rcases List.mem_append.mp hq with hq | hq
    · rw [htwslide] at hq
      obtain ⟨x, hx, rfl⟩ := List.mem_map.mp hq
      have hxlt : x < t0 := (Tiling.mem_bounds htw x hx).2
      constructor
      · show locAfterMoveCompact _ x = x
        have hnone : List.lookup x (slideTargets h rest t0) = none := by
          apply lookup_none_of_not_key
          intro pr hpr
          have h1 : pr.1 ∈ rest := by
            rw [← hrest_fst]
            exact List.mem_map_of_mem Prod.fst hpr
          have h2 := hrest_gt pr.1 h1
          omega
        unfold locAfterMoveCompact
        rw [hnone]
      · show applySlides h _ x = h x
        apply applySlides_not_target
        intro hx2
        obtain ⟨pr, hpr, hpr2⟩ := List.mem_map.mp hx2
        have := slideTargets_tgt_ge rest t0 pr hpr
        omega
    · constructor
      · show locAfterMoveCompact _ q.1 = q.2
        unfold locAfterMoveCompact
        rw [lookup_pair_self hrest_keys_lt hq]
      · rw [heval q.2, find?_snd_self hrest_snd hq]
  · intro x hx
    have hnone : List.lookup x (slideTargets h rest t0) = none := by
      apply lookup_none_of_not_key
      intro pr hpr
      have h1 : pr.1 ∈ rest := by
        rw [← hrest_fst]
        exact List.mem_map_of_mem Prod.fst hpr
      intro hcontra
      exact hx (hcontra ▸ h1)
    unfold locAfterMoveCompact
    rw [hnone]
  · intro x hx
    apply applySlides_not_target
    intro hx2
    obtain ⟨pr, hpr, hpr2⟩ := List.mem_map.mp hx2
    have h1 := slideTargets_tgt_ge rest t0 pr hpr
    omega


/-! ## Supporting lemmas for the push claim -/

theorem incFold_rc : ∀ (ls : List Nat) (rc : Nat → Nat) (x : Nat),
    (ls.foldl (fun rc s => if s ≠ 0 then Function.update rc s ((rc s + 1) % 256) else rc) rc) x
      = if x ≠ 0 ∧ x ∈ ls then (rc x + ls.count x) % 256 else rc x := by
  intro ls
  induction ls with
  | nil =>
    intro rc x
    rw [if_neg (by simp)]
    rfl
  | cons a as ih =>
    intro rc x
    rw [List.foldl_cons]
    by_cases ha0 : a = 0
    · subst ha0
      have hstep : (if (0:Nat) ≠ 0 then Function.update rc 0 ((rc 0 + 1) % 256) else rc)
          = rc := by
        rw [if_neg (by simp)]
      rw [hstep, ih]
      by_cases hx : x ≠ 0 ∧ x ∈ as
      · rw [if_pos hx, if_pos ⟨hx.1, List.mem_cons_of_mem _ hx.2⟩, List.count_cons,
          if_neg (by simp only [beq_iff_eq]; exact fun hc => hx.1 hc.symm)]
        omega
      · rw [if_neg hx, if_neg ?hc]
        case hc =>
          intro hx2
          rcases List.mem_cons.mp hx2.2 with h4 | h4
          · exact hx2.1 h4
          · exact hx ⟨hx2.1, h4⟩
    · have hstep : (if a ≠ 0 then Function.update rc a ((rc a + 1) % 256) else rc)
          = Function.update rc a ((rc a + 1) % 256) := by
        rw [if_pos ha0]
      rw [hstep, ih]
      by_cases hxa : x = a
      · subst hxa
        simp only [Function.update_same]
        by_cases hmem : x ∈ as
        · rw [if_pos ⟨ha0, hmem⟩, if_pos ⟨ha0, List.mem_cons_self x as⟩, List.count_cons]
          simp only [beq_self_eq_true, if_true]
          try omega
        · rw [if_neg (fun hc => hmem hc.2), if_pos ⟨ha0, List.mem_cons_self x as⟩,
            List.count_cons, List.count_eq_zero.mpr hmem]
          simp only [beq_self_eq_true, if_true]
          try omega
      · simp only [Function.update_noteq hxa]
        by_cases hx : x ≠ 0 ∧ x ∈ as
        · rw [if_pos hx, if_pos ⟨hx.1, List.mem_cons_of_mem _ hx.2⟩, List.count_cons,
            if_neg (by simp only [beq_iff_eq]; exact fun hc => hxa hc.symm)]
          omega
        · rw [if_neg hx, if_neg ?hc2]
          case hc2 =>
            intro hx2
            rcases List.mem_cons.mp hx2.2 with h4 | h4
            · exact hxa h4
            · exact hx ⟨hx2.1, h4⟩

theorem take_set_self : ∀ (l : List Nat) (i v : Nat), (l.set i v).take i = l.take i := by
  intro l
  induction l with
  | nil => intro i v; rfl
  | cons a as ih =>
    intro i v
    cases i with
    | zero => rfl
    | succ j =>
      simp only [List.set_cons_succ, List.take_succ_cons]
      rw [ih]

theorem drop_set_succ : ∀ (l : List Nat) (i v : Nat), (l.set i v).drop (i+1) = l.drop (i+1) := by
  intro l
  induction l with
  | nil => intro i v; rfl
  | cons a as ih =>
    intro i v
    cases i with
    | zero => rfl
    | succ j =>
      simp only [List.set_cons_succ, List.drop_succ_cons]
      exact ih j v


/-- The `Tup::cleanup` slot loop on a tuple whose remaining slots all
keep a spare reference: every remaining slot is released once and
zeroed, and no release cascades. -/
theorem rcStep_slots_run : ∀ (k : Nat) (fuel : Nat) (st : RSt) (t i : Nat) (cur : List Nat),
    st.heap t = .tup cur →
    i + k = cur.length →
    k + 1 ≤ fuel →
    (∀ s, s ≠ 0 → s ∈ cur.drop i → (cur.drop i).count s + 1 ≤ st.rc s ∧ st.rc s ≤ 255) →
    t ∉ cur.drop i →
    ∃ st', rcStep fuel st (.slotsO t i k) = some (st', false) ∧
      st'.heap = Function.update st.heap t (.tup (cur.take i ++ List.replicate k 0)) ∧
      (∀ x, x ≠ 0 → st'.rc x = st.rc x - (cur.drop i).count x) ∧
      st'.rc 0 = st.rc 0 ∧
      st'.top = st.top := by
  intro k
  induction k with
  | zero =>
    intro fuel st t i cur htup hik hfuel hinv htni
    obtain ⟨f, rfl⟩ : ∃ f, fuel = f + 1 := ⟨fuel - 1, by omega⟩
    refine ⟨st, rfl, ?_, ?_, rfl, rfl⟩
    · rw [List.replicate_zero, List.append_nil,
        List.take_of_length_le (by omega), ← htup, Function.update_eq_self]
    · intro x hx
      rw [List.drop_eq_nil_of_le (by omega)]
      simp
  | succ k ih =>
    intro fuel st t i cur htup hik hfuel hinv htni
    obtain ⟨f, rfl⟩ : ∃ f, fuel = f + 1 := ⟨fuel - 1, by omega⟩
    have hi : i < cur.length := by omega
    have hdropeq : cur.drop i = cur[i] :: cur.drop (i + 1) := List.drop_eq_getElem_cons hi
    have hgetD : cur.getD i 0 = cur[i] := by
      rw [List.getD_eq_getElem?_getD, List.getElem?_eq_getElem hi]
      rfl
    have hcount_head : (cur.drop i).count cur[i] = (cur.drop (i + 1)).count cur[i] + 1 := by
      rw [hdropeq, List.count_cons]
      simp
    have hcount_tail : ∀ x, x ≠ cur[i] →
        (cur.drop i).count x = (cur.drop (i + 1)).count x := by
      intro x hx
      rw [hdropeq, List.count_cons,
        if_neg (by simp only [beq_iff_eq]; exact fun hc => hx hc.symm)]
      omega
    have htni2 : t ∉ cur.drop (i + 1) := by
      intro hcon
      exact htni (by rw [hdropeq]; exact List.mem_cons_of_mem _ hcon)
    have hinv_tail0 : ∀ s, s ≠ 0 → s ∈ cur.drop (i + 1) → s ∈ cur.drop i := by
      intro s _ hs
      rw [hdropeq]
      exact List.mem_cons_of_mem _ hs
    by_cases hs0 : cur[i] = 0
    · -- the slot is nil: unsharing does nothing
      obtain ⟨g, rfl⟩ : ∃ g, f = g + 1 := ⟨f - 1, by omega⟩
      have hstep : rcStep (g + 1 + 1) st (.slotsO t i (k + 1)) =
          rcStep (g + 1) { st with heap := Function.update st.heap t (.tup (cur.set i 0)) }
            (.slotsO t (i + 1) k) := by
        simp only [rcStep, bind]
        rw [htup]
        dsimp only
        rw [if_pos (hgetD.trans hs0), Option.some_bind]
        dsimp only
        rw [htup]
      obtain ⟨st', hrun, hheap, hrc, hrc0, htop⟩ := ih (g + 1)
        { st with heap := Function.update st.heap t (.tup (cur.set i 0)) } t (i + 1)
        (cur.set i 0)
        (by dsimp only; rw [Function.update_same])
        (by rw [List.length_set]; omega)
        (by omega)
        (by
          intro s hsne hsmem
          rw [drop_set_succ] at hsmem
          dsimp only
          rw [drop_set_succ]
          have h6 := hinv s hsne (hinv_tail0 s hsne hsmem)
          have h7 : (cur.drop i).count s = (cur.drop (i + 1)).count s := by
            refine hcount_tail s ?_
            intro hc
            exact hsne (hc.trans hs0)
          omega)
        (by rw [drop_set_succ]; exact htni2)
      refine ⟨st', hstep.trans hrun, ?_, ?_, ?_, ?_⟩
      · rw [hheap]
        dsimp only
        rw [Function.update_idem, List.take_succ, take_set_self,
          List.getElem?_set_self hi]
        show _ = Function.update st.heap t (.tup (cur.take i ++ (0 :: List.replicate k 0)))
        rw [List.append_assoc]
        rfl
      · intro x hx
        rw [hrc x hx]
        dsimp only
        rw [drop_set_succ, hcount_tail x (fun hc => hx (hc.trans hs0))]
      · rw [hrc0]
      · rw [htop]
    · -- a live slot: one decrement, no cascade
      have hmem_head : cur[i] ∈ cur.drop i := by
        rw [hdropeq]
        exact List.mem_cons_self _ _
      have hinv_head := hinv cur[i] hs0 hmem_head
      rw [hcount_head] at hinv_head
      obtain ⟨g, rfl⟩ : ∃ g, f = g + 1 := ⟨f - 1, by omega⟩
      have hpos : (st.rc (cur.getD i 0) + 255) % 256 ≠ 0 := by
        rw [hgetD]
        omega
      have hstep : rcStep (g + 1 + 1) st (.slotsO t i (k + 1)) =
          rcStep (g + 1) { st with rc := Function.update st.rc (cur.getD i 0) ((st.rc (cur.getD i 0) + 255) % 256), heap := Function.update st.heap t (.tup (cur.set i 0)) }
            (.slotsO t (i + 1) k) := by
        simp only [rcStep, bind]
        rw [htup]
        dsimp only
        rw [if_neg (by rw [hgetD]; exact hs0), if_neg hpos, Option.some_bind]
        dsimp only
        rw [htup]
      obtain ⟨st', hrun, hheap, hrc, hrc0, htop⟩ := ih (g + 1)
        { st with rc := Function.update st.rc (cur.getD i 0) ((st.rc (cur.getD i 0) + 255) % 256), heap := Function.update st.heap t (.tup (cur.set i 0)) } t (i + 1)
        (cur.set i 0)
        (by dsimp only; rw [Function.update_same])
        (by rw [List.length_set]; omega)
        (by omega)
        (by
          intro s hsne hsmem
          rw [drop_set_succ] at hsmem
          dsimp only
          rw [drop_set_succ, hgetD]
          have h6 := hinv s hsne (hinv_tail0 s hsne hsmem)
          by_cases hseq : s = cur[i]
          · subst hseq
            rw [Function.update_same]
            omega
          · rw [Function.update_noteq hseq]
            have h7 := hcount_tail s hseq
            omega)
        (by rw [drop_set_succ]; exact htni2)
      refine ⟨st', hstep.trans hrun, ?_, ?_, ?_, ?_⟩
      · rw [hheap]
        dsimp only
        rw [Function.update_idem, List.take_succ, take_set_self,
          List.getElem?_set_self hi]
        show _ = Function.update st.heap t (.tup (cur.take i ++ (0 :: List.replicate k 0)))
        rw [List.append_assoc]
        rfl
      · intro x hx
        rw [hrc x hx]
        dsimp only
        rw [drop_set_succ, hgetD]
        by_cases hxeq : x = cur[i]
        · subst hxeq
          rw [Function.update_same, hcount_head]
          omega
        · rw [Function.update_noteq hxeq, hcount_tail x hxeq]
      · rw [hrc0]
        dsimp only
        rw [hgetD, Function.update_noteq (fun hc => hs0 hc.symm)]
      · rw [htop]


/-- `ObjRef::unshare` on a tuple owned by exactly one reference: the
count drops to zero, `Tup::cleanup` releases and zeroes every slot
without cascading, and `Mem::free` overwrites the tuple with a free
header of its size. -/
theorem rcStep_unshare_free {fuel : Nat} {st : RSt} {t : Nat} {cur : List Nat}
    (htup : st.heap t = .tup cur)
    (hrc : st.rc t = 1)
    (ht0 : t ≠ 0)
    (htni : t ∉ cur)
    (hfuel : cur.length + 3 ≤ fuel)
    (hinv : ∀ s, s ≠ 0 → s ∈ cur → cur.count s + 1 ≤ st.rc s ∧ st.rc s ≤ 255) :
    ∃ st', rcStep fuel st (.unshareO t) = some (st', true) ∧
      st'.heap = Function.update st.heap t (.free (2 + cur.length)) ∧
      (∀ x, x ≠ 0 → x ≠ t → st'.rc x = st.rc x - cur.count x) ∧
      st'.rc t = 0 ∧
      st'.rc 0 = st.rc 0 ∧
      st'.top = st.top := by
  obtain ⟨f, rfl⟩ : ∃ f, fuel = f + 1 := ⟨fuel - 1, by omega⟩
  obtain ⟨g, rfl⟩ : ∃ g, f = g + 1 := ⟨f - 1, by omega⟩
  have hrt : (st.rc t + 255) % 256 = 0 := by rw [hrc]
  obtain ⟨stZ, hZrun, hZheap, hZrc, hZrc0, hZtop⟩ := rcStep_slots_run cur.length g
    { st with rc := Function.update st.rc t ((st.rc t + 255) % 256) } t 0 cur
    (by dsimp only; exact htup)
    (by omega)
    (by omega)
    (by
      intro s hs0 hsmem
      dsimp only
      rw [List.drop_zero, Function.update_noteq (by intro hc; rw [hc] at hsmem; exact htni hsmem)]
      exact hinv s hs0 hsmem)
    (by rw [List.drop_zero]; exact htni)
  refine ⟨{ stZ with heap := Function.update stZ.heap t (.free (stZ.heap t).size) },
    ?_, ?_, ?_, ?_, ?_, ?_⟩
  · simp only [rcStep, bind]
    rw [if_neg ht0, if_pos hrt]
    try dsimp only
    rw [htup]
    dsimp only
    rw [hZrun, Option.map_some']
  · try dsimp only
    rw [hZheap]
    dsimp only
    rw [Function.update_same, Function.update_idem]
    show Function.update st.heap t (.free (HObj.tup (List.take 0 cur ++ List.replicate cur.length 0)).size) = _
    rw [List.take_zero, List.nil_append]
    show Function.update st.heap t (.free (2 + (List.replicate cur.length 0).length)) = _
    rw [List.length_replicate]
  · intro x hx0 hxt
    dsimp only
    rw [hZrc x hx0]
    dsimp only
    rw [List.drop_zero, Function.update_noteq hxt]
  · try dsimp only
    rw [hZrc t ht0]
    dsimp only
    rw [List.drop_zero, Function.update_same, hrt, List.count_eq_zero.mpr htni]
  · try dsimp only
    rw [hZrc0]
    dsimp only
    rw [Function.update_noteq (fun hc => ht0 hc.symm)]
  · try dsimp only
    rw [hZtop]

/-- `Tup::set` on a slot that holds the nil reference: the incoming
count is incremented, the release is a no-op, and the slot is
overwritten. -/
theorem tupSet_zero_slot {fuel : Nat} {st : RSt} {l i objLoc : Nat} {slots : List Nat}
    (htup : st.heap l = .tup slots) (hi : i < slots.length) (hslot : slots.getD i 0 = 0)
    (hfuel : 1 ≤ fuel) :
    Tup.set fuel st l i objLoc = some
      ({ st with heap := Function.update st.heap l (.tup (slots.set i objLoc)), rc := Function.update st.rc objLoc ((st.rc objLoc + 1) % 256) }, false) := by
  obtain ⟨f, rfl⟩ : ∃ f, fuel = f + 1 := ⟨fuel - 1, by omega⟩
  unfold Tup.set
  rw [htup]
  dsimp only
  rw [if_pos hi, hslot]
  simp only [rcStep]
  rw [if_true, Option.map_some']
  dsimp only
  rw [htup]


/-! # Claim theorems -/

/-- C2, counterexample: the claim says a sequence of reserve and alloc
calls whose total size brings `top` exactly to `HeapSize` succeeds, but
`Mem::reserve` runs `assert(top < HeapSize)` after advancing `top`, so
the reservation that brings `top` to exactly `HeapSize` already aborts:
from `top = 1`, reserving 1999 words (which would make `top` exactly
`HeapSize`) fails. -/
theorem reserve_exact_heapSize_counterexample :
    1 + 1999 = HeapSize ∧ Mem.reserve 1 1999 = none := by
  constructor
  · decide
  · decide

/-- C2 (amended): `reserve(n)` returns the old `top` and advances it by
`n`; it fails exactly when the advanced `top` (a 16-bit value, hence
taken mod `2^16`) is not strictly below `HeapSize`.  In particular the
heap can only fill up to `HeapSize - 1`, and the semi-space boundary is
never checked. -/
theorem reserve_spec (top n : Nat) :
    ((Mem.reserve top n).isSome ↔ (top + n) % 65536 < HeapSize) ∧
    (top + n < 65536 →
      Mem.reserve top n =
        if top + n < HeapSize then some (top, top + n) else none) := by
  constructor
  · by_cases hc : (top + n) % 65536 < HeapSize <;> simp [Mem.reserve, hc]
  · intro hw
    rw [Mem.reserve]
    rw [Nat.mod_eq_of_lt hw]

/-- Witness for C2: a reservation strictly below the bound succeeds and
returns the old top advanced by the size. -/
theorem reserve_spec_witness :
    Mem.reserve 1 1998 = if 1 + 1998 < HeapSize then some (1, 1 + 1998) else none :=
  (reserve_spec 1 1998).2 (by decide)

/-- C3, counterexample: collecting the one-object state in copying mode
vacates the low region, and the single free event has size
`HeapSemiSize - 1` (the nil cell at location 0 is never freed), not
`HeapSemiSize` as the claim states. -/
theorem gcCopy_free_event_size_counterexample :
    (Mem.gc .copySpace 20 exNumSt).map (fun p => p.2) =
      some [MEvent.freeMem 1 999] ∧ 999 ≠ HeapSemiSize := by
  constructor
  · decide
  · decide

/-- C3 (amended): every semi-space collection logs exactly one free
event; it is `(1, HeapSemiSize - 1)` when the post-collection `top`
lies at or above `HeapSemiSize` (low region vacated, location 0 kept),
and `(HeapSemiSize, HeapSemiSize)` otherwise (high region vacated). -/
theorem gcCopy_free_event {fuel : Nat} {s s' : St} {ev : List MEvent}
    (hgc : Mem.gc .copySpace fuel s = some (s', ev)) :
    ev = if HeapSemiSize ≤ s'.top then [MEvent.freeMem 1 (HeapSemiSize - 1)]
      else [MEvent.freeMem HeapSemiSize HeapSemiSize] := by
  simp only [Mem.gc, bind, Option.bind_eq_some, pure, Option.some.injEq] at hgc
  obtain ⟨⟨h1, top1⟩, hmv, ⟨h2, ev2⟩, hwalk, heq⟩ := hgc
  rw [Prod.mk.injEq] at heq
  obtain ⟨heq1, heq2⟩ := heq
  subst heq2
  rw [← heq1]

/-- Witness for C3: the amended statement evaluated on the one-object
state. -/
theorem gcCopy_free_event_witness :
    ∃ p : St × List MEvent, Mem.gc .copySpace 20 exNumSt = some p ∧
      p.2 = if HeapSemiSize ≤ p.1.top then [MEvent.freeMem 1 (HeapSemiSize - 1)]
        else [MEvent.freeMem HeapSemiSize HeapSemiSize] := by
  have h : (Mem.gc .copySpace 20 exNumSt).isSome = true := by decide
  obtain ⟨p, hp⟩ := Option.isSome_iff_exists.mp h
  exact ⟨p, hp, @gcCopy_free_event 20 exNumSt p.1 p.2 (by rw [hp])⟩

/-- C6, counterexample: `traverse` on the tuple at location 1 (slots
`[0, 2]`, where location 2 is a tuple referencing location 3) calls the
visit function on the zero slot and, recursively, on location 3, which
is not an outgoing location of the object; so the visit sequence is not
the set of non-zero outgoing locations visited exactly once. -/
theorem traverse_visits_counterexample :
    visitObj exTraverseHeap 10 (exTraverseHeap 1) = some [0, 2, 3] ∧
    (exTraverseHeap 1).succs = [0, 2] ∧
    ¬ List.Perm [0, 2, 3] (((exTraverseHeap 1).succs.filter (fun s => s ≠ 0)).dedup) := by
  refine ⟨by decide, by decide, by decide⟩

/-- C6 (amended): `traverse(visit)` visits every outgoing location of
the object (zero slots included), and recursively the locations below
them: when every outgoing location holds an object with no outgoing
references, the visit sequence is exactly the slots of a `Tup` in
order, the backing tup followed by the slots of the backing for a
`Vec`, and empty for an object without outgoing references. -/
theorem traverse_spec {h : Heap} {fuel : Nat} {o : HObj} {out : List Nat}
    (hv : visitObj h fuel o = some out) :
    (∀ s ∈ o.succs, s ∈ out) ∧
    (∀ slots, o = .tup slots → (∀ s ∈ slots, (h s).succs = []) → out = slots) ∧
    (∀ len t ts, o = .vec len t → h t = .tup ts →
      (∀ s ∈ ts, (h s).succs = []) → out = t :: ts) ∧
    (o.succs = [] → out = []) := by
  refine ⟨visitObj_succs_subset hv, ?_, ?_, ?_⟩
  · intro slots ho hleaf
    subst ho
    cases fuel with
    | zero => simp [visitObj, visitGo] at hv
    | succ f =>
      have hv' : visitGo h f (.slotList slots) = some out := by
        simpa [visitObj, visitGo] using hv
      exact visitGo_slotList_leaves hv' hleaf
  · intro len t ts ho hht hleaf
    subst ho
    cases fuel with
    | zero => simp [visitObj, visitGo] at hv
    | succ f =>
      obtain ⟨ts', out', hht', hgo, rfl⟩ := visitGo_vec_inv hv
      rw [hht] at hht'
      injection hht' with hts
      subst hts
      rw [visitGo_slotList_leaves hgo hleaf]
  · intro hs
    exact visitObj_out_of_no_succs hv hs

/-- Witness for C6: on a tuple of two numbers the visit sequence is
exactly the two slots. -/
theorem traverse_spec_witness :
    (∀ s ∈ (exTraverseLeafHeap 1).succs, s ∈ [3, 5]) ∧ ([3, 5] : List Nat) = [3, 5] :=
  ⟨(traverse_spec (by decide : visitObj exTraverseLeafHeap 10 (exTraverseLeafHeap 1) =
      some [3, 5])).1,
   ((traverse_spec (by decide : visitObj exTraverseLeafHeap 10 (exTraverseLeafHeap 1) =
      some [3, 5])).2.1 [3, 5] (by decide) (by decide)).symm ▸ rfl⟩


/-- `ObjRef::unshare` on a nonzero location whose count does not drop
to zero: decrement only, no release. -/
theorem rcStep_unshare_live {f : Nat} {st : RSt} {v : Nat} (hv0 : v ≠ 0)
    (hpos : (st.rc v + 255) % 256 ≠ 0) :
    rcStep (f + 1) st (.unshareO v) =
      some ({ st with rc := Function.update st.rc v ((st.rc v + 255) % 256) }, false) := by
  simp only [rcStep]
  rw [if_neg hv0, if_neg hpos]

/-- C7, counterexample: assigning a zero slot to the zero it already
holds is a self-assignment, yet it changes a reference count:
`ObjRef::share` increments the count of the referenced object even for
location 0 (the shared nil), while `ObjRef::unshare` skips location 0,
so the count of the nil object at 0 goes from 1 to 2. -/
theorem slot_self_assignment_zero_counterexample :
    exRcZeroSlot.rc 0 = 1 ∧
    (Tup.set 10 exRcZeroSlot 1 0 0).map (fun p => p.1.rc 0) = some 2 := by
  exact ⟨by decide, by decide⟩

/-- C7 (amended): assigning a `Tup` slot to the nonzero value it
already holds, with a count between 1 and 255, leaves the whole state
(heap and every reference count) unchanged and frees nothing, because
the count of the incoming location is incremented before the outgoing
location is released; the same holds for a `Vec` slot, which delegates
to the backing tup. -/
theorem slot_self_assignment {fuel : Nat} {st : RSt} {l i v : Nat} {slots : List Nat}
    (hheap : st.heap l = .tup slots) (hi : i < slots.length)
    (hslot : slots.getD i 0 = v) (hv0 : v ≠ 0)
    (hrc1 : 1 ≤ st.rc v) (hrc2 : st.rc v ≤ 255) (hfuel : 1 ≤ fuel) :
    Tup.set fuel st l i v = some (st, false) ∧
    ∀ vecLoc len, st.heap vecLoc = .vec len l → i < len →
      Vec.set fuel st vecLoc i v = some (st, false) := by
  obtain ⟨f, rfl⟩ : ∃ f, fuel = f + 1 := ⟨fuel - 1, by omega⟩
  have hset2 : slots.set i v = slots := by
    rw [← hslot]; exact list_set_getD_self hi
  have hmain : Tup.set (f + 1) st l i v = some (st, false) := by
    unfold Tup.set
    rw [hheap]
    dsimp only
    rw [if_pos hi, hslot]
    rw [rcStep_unshare_live hv0
      (by show (Function.update st.rc v ((st.rc v + 1) % 256) v + 255) % 256 ≠ 0
          rw [Function.update_same]; omega)]
    rw [Option.map_some']
    dsimp only
    rw [hheap]
    dsimp only
    rw [hset2, ← hheap, Function.update_eq_self]
    rw [Function.update_same, Function.update_idem]
    have harith : ((st.rc v + 1) % 256 + 255) % 256 = st.rc v := by omega
    rw [harith, Function.update_eq_self]
  refine ⟨hmain, ?_⟩
  intro vecLoc len hvheap hilen
  unfold Vec.set
  rw [hvheap]
  dsimp only
  rw [if_pos hilen, hmain]

/-- Witness for C7: self-assigning the single slot of the tuple at 1
(held by the vector at 2) leaves the state unchanged, through both the
tup and the vec entry points. -/
theorem slot_self_assignment_witness :
    Tup.set 10 exRcSelf 1 0 5 = some (exRcSelf, false) ∧
    Vec.set 10 exRcSelf 2 0 5 = some (exRcSelf, false) := by
  have h := @slot_self_assignment 10 exRcSelf 1 0 5 [5] (by decide) (by decide)
    (by decide) (by decide) (by decide) (by decide) (by decide)
  exact ⟨h.1, h.2 2 1 (by decide) (by decide)⟩

/-- C10 (confirmed): `Str::split` writes one begin/end pair per
separator occurrence plus one final pair, so the pair list has length
`count + 1`; when the string holds at most 4 separators every buffer
index written is below the 5-entry buffers of `StrRef::split`, and with
5 or more separators some write is out of bounds, so the bound is
necessary; the segments delimited by the pairs are exactly
`List.splitOn`, and rejoining them with the separator recovers the
string. -/
theorem strRef_split_buffer_spec (chars : List Nat) (sep : Nat) :
    (Str.splitPairs chars sep).length = chars.count sep + 1 ∧
    (chars.count sep ≤ 4 →
      ∀ j < (Str.splitPairs chars sep).length, j < StrRef.splitBufLen) ∧
    (4 < chars.count sep →
      ∃ j < (Str.splitPairs chars sep).length, ¬ j < StrRef.splitBufLen) ∧
    (Str.splitPairs chars sep).map (fun p => (chars.drop p.1).take (p.2 - p.1)) =
      chars.splitOn sep ∧
    List.intercalate [sep]
      ((Str.splitPairs chars sep).map (fun p => (chars.drop p.1).take (p.2 - p.1))) =
      chars := by
  have hlen : (Str.splitPairs chars sep).length = chars.count sep + 1 :=
    splitPairs_go_length sep chars 0 0
  have hseg : (Str.splitPairs chars sep).map
      (fun p => (chars.drop p.1).take (p.2 - p.1)) = chars.splitOn sep := by
    have h := splitPairs_go_segments sep chars chars 0 0 (by simp) (Nat.le_refl 0)
    simp only [Nat.sub_zero, List.take_zero, List.drop_zero] at h
    rw [modifyHead_nil_append] at h
    rw [show Str.splitPairs chars sep = Str.splitPairs.go sep chars 0 0 from rfl, h]
    rfl
  refine ⟨hlen, ?_, ?_, hseg, ?_⟩
  · intro hc j hj
    rw [hlen] at hj
    show j < 5
    omega
  · intro hc
    refine ⟨5, ?_, by decide⟩
    rw [hlen]
    omega
  · rw [hseg]
    exact List.intercalate_splitOn chars sep

/-- Witness for C10: the string "ab,cd,e" (codes, separator 44) has
two separators, so the split yields three pairs, every written index
is below the buffer length 5, and the delimited segments are exactly
the `splitOn` decomposition. -/
theorem strRef_split_buffer_spec_witness :
    (Str.splitPairs [97, 98, 44, 99, 100, 44, 101] 44).length = 3 ∧
    (∀ j < (Str.splitPairs [97, 98, 44, 99, 100, 44, 101] 44).length,
      j < StrRef.splitBufLen) ∧
    (Str.splitPairs [97, 98, 44, 99, 100, 44, 101] 44).map
        (fun p => (([97, 98, 44, 99, 100, 44, 101].drop p.1).take (p.2 - p.1))) =
      [97, 98, 44, 99, 100, 44, 101].splitOn 44 := by
  have h := strRef_split_buffer_spec [97, 98, 44, 99, 100, 44, 101] 44
  exact ⟨h.1.trans (by decide), h.2.1 (by decide), h.2.2.2.1⟩

set_option maxRecDepth 100000 in
/-- C1: a collection in copying mode can lose the values reachable from
the roots.  On `exBoundarySt` the live data is exactly
`HeapSemiSize - 1` words, so after the flip into the low region the
new `top` is exactly `HeapSemiSize`; `fixup_references` then decides
the walk by `top >= HeapSemiSize` and walks the empty range
`[HeapSemiSize, top)`, fixing no heap slot.  The tuple reachable from
the first root read `(vtup [vnum 7])` before the collection, but
afterwards its slot still holds the stale location 1994, now a
`Forward` header, and the structural read fails. -/
theorem gcCopy_boundary_value_lost :
    valueAt exBoundarySt.heap 10 1996 = some (.vtup [.vnum 7]) ∧
    ((Mem.gc .copySpace 30 exBoundarySt).map fun p =>
        (p.1.roots, valueAt p.1.heap 10 (p.1.roots.getD 0 0))) =
      some ([997, 1], none) := by
  exact ⟨rfl, rfl⟩

set_option maxRecDepth 100000 in
/-- C9: after the same boundary collection the object at the first
root (the relocated tuple at 997) has an outgoing slot whose header is
a `Forward` record: the fixup phase left an unresolved forwarding
address in a live heap reference slot. -/
theorem gcCopy_boundary_forward_left :
    ((Mem.gc .copySpace 30 exBoundarySt).map fun p =>
        (p.1.heap (p.1.roots.getD 0 0)).succs.map fun s => (p.1.heap s).isFwd) =
      some [true] := by
  decide


/-- C5 (confirmed): three objects A, B, C tiled from location 1 with
only A and C live: `Mem::compact_live` leaves A at 1, slides C down to
`1 + size(A)`, sets `top` to `1 + size(A) + size(C)`, and records
exactly the forwarding entry from the old position of C to the new
one; in general the slide assigns strictly increasing targets to the
survivors in walk order, preserving their relative order. -/
theorem markCompact_three_object_slide {h : Heap} {A B C : HObj}
    {pB pC oldTop fuel : Nat}
    (hA : h 1 = A) (hB : h pB = B) (hC : h pC = C)
    (hpB : pB = 1 + A.size) (hpC : pC = pB + B.size) (hTop : oldTop = pC + C.size)
    (hsA : 0 < A.size) (hsB : 0 < B.size) (hsC : 0 < C.size)
    (hfuel : 3 < fuel) :
    (∃ h1, Mem.compactGo [1, pC] oldTop fuel 1 h oldTop [] =
        some (h1, (1 + A.size + C.size, [(pC, 1 + A.size)])) ∧
      h1 1 = A ∧ h1 (1 + A.size) = C) ∧
    ∀ (h0 : Heap) (ls : List Nat) (t0 : Nat), (∀ l ∈ ls, 0 < (h0 l).size) →
      (slideTargets h0 ls t0).map Prod.fst = ls ∧
      ((slideTargets h0 ls t0).map Prod.snd).Pairwise (fun a b => a < b) := by
  subst hA hB hC hpB hpC hTop
  constructor
  · have hne1 : (1 + (h 1).size) ≠ 1 := by omega
    have hnepC : (1 + (h 1).size) ≠ (1 + (h 1).size + (h (1 + (h 1).size)).size) := by
      omega
    have hcont1 : List.contains [1, 1 + (h 1).size + (h (1 + (h 1).size)).size] 1 = true := by
      simp
    have hcontB : List.contains [1, 1 + (h 1).size + (h (1 + (h 1).size)).size]
        (1 + (h 1).size) = false := by
      simp only [List.contains_eq_any_beq, List.any_cons, List.any_nil, Bool.or_false,
        Bool.or_eq_false_iff, beq_eq_false_iff_ne, ne_eq]
      constructor
      · omega
      · omega
    have hcontC : List.contains [1, 1 + (h 1).size + (h (1 + (h 1).size)).size]
        (1 + (h 1).size + (h (1 + (h 1).size)).size) = true := by
      simp
    have ht : Tiling h [1, 1 + (h 1).size,
        1 + (h 1).size + (h (1 + (h 1).size)).size] 1
        (1 + (h 1).size + (h (1 + (h 1).size)).size +
          (h (1 + (h 1).size + (h (1 + (h 1).size)).size)).size) := by
      refine ⟨rfl, by omega, rfl, by omega, rfl, by omega, ?_⟩
      show _ = _
      omega
    have hsz : ∀ x ∈ [1, 1 + (h 1).size,
        1 + (h 1).size + (h (1 + (h 1).size)).size], 0 < (h x).size := by
      intro x hx
      simp only [List.mem_cons, List.not_mem_nil, or_false] at hx
      rcases hx with rfl | rfl | rfl
      · exact hsA
      · exact hsB
      · exact hsC
    have hspec := @compactGo_spec h [1, 1 + (h 1).size + (h (1 + (h 1).size)).size]
      (1 + (h 1).size + (h (1 + (h 1).size)).size + (h (1 + (h 1).size + (h (1 + (h 1).size)).size)).size)
      [1, 1 + (h 1).size, 1 + (h 1).size + (h (1 + (h 1).size)).size] 1 fuel ht hsz
      (by simp; omega)
    rw [survivorsOf_cons_pos hcont1, survivorsOf_cons_neg hcontB,
      survivorsOf_cons_pos hcontC] at hspec
    rw [keepLenOf_cons_pos hcont1, keepLenOf_cons_neg hcontB] at hspec
    simp only [survivorsOf, List.filter_nil, keepLenOf, List.takeWhile_nil,
      List.length_nil] at hspec
    refine ⟨applySlides h (List.drop (0 + 1)
        (slideTargets h [1, 1 + (h 1).size + (h (1 + (h 1).size)).size] 1)), ?_, ?_, ?_⟩
    · rw [hspec]
      simp only [slideTargets, sizeSum, List.map_cons, List.map_nil, List.sum_cons,
        List.sum_nil, List.drop_succ_cons, List.drop_zero]
      refine congrArg some (Prod.ext rfl (Prod.ext ?_ ?_))
      · show 1 + ((h 1).size + ((h (1 + (h 1).size + (h (1 + (h 1).size)).size)).size + 0)) =
          1 + (h 1).size + (h (1 + (h 1).size + (h (1 + (h 1).size)).size)).size
        omega
      · rfl
    · show applySlides h _ 1 = h 1
      simp only [slideTargets, List.drop_succ_cons, List.drop_zero, applySlides]
      rw [Function.update_noteq (by omega)]
    · show applySlides h _ (1 + (h 1).size) = h (1 + (h 1).size + (h (1 + (h 1).size)).size)
      simp only [slideTargets, List.drop_succ_cons, List.drop_zero, applySlides]
      rw [Function.update_same]
  · intro h0 ls t0 hsz
    exact ⟨slideTargets_fst ls t0, slideTargets_snd_pairwise ls t0 hsz⟩

/-- Witness for C5: with numbers at 1, 3, 5 and the middle one dead,
compaction keeps the first in place, slides the third to 3, sets top
to 5, and forwards exactly 5 to 3. -/
theorem markCompact_three_object_slide_witness :
    ∃ h1, Mem.compactGo [1, 5] 7 10 1 exCompactHeap 7 [] =
        some (h1, (1 + (HObj.num 10).size + (HObj.num 30).size, [(5, 1 + (HObj.num 10).size)])) ∧
      h1 1 = HObj.num 10 ∧ h1 (1 + (HObj.num 10).size) = HObj.num 30 :=
  (@markCompact_three_object_slide exCompactHeap (.num 10) (.num 20) (.num 30) 3 5 7 10
    rfl rfl rfl (by decide) (by decide) (by decide) (by decide) (by decide) (by decide)
    (by decide)).1


/-- C4, counterexample: in copying mode a second collection flips the
live data back to the other semi-space, so on the one-object state the
first collection leaves `top = 1002` while the second leaves
`top = 3`: two collections do not equal one. -/
theorem gc_twice_copy_counterexample :
    ((Mem.gc .copySpace 20 exNumSt).map fun p => p.1.top) = some 1002 ∧
    (((Mem.gc .copySpace 20 exNumSt).bind fun p => Mem.gc .copySpace 20 p.1).map
        fun p => p.1.top) = some 3 ∧
    (1002 : Nat) ≠ 3 := by
  exact ⟨by decide, by decide, by decide⟩

/-- C4 (amended): for the non-copying collectors, a second collection
with no intervening mutation returns exactly the state of the first:
reference counting does nothing, a second sweep rewrites the same free
blocks over themselves, and a second compaction finds every survivor
already in place.  The hypotheses say the heap tiles into objects of
positive size, the mark phase succeeds, and the live locations are
object starts. -/
theorem gc_idempotent {mode : Mem.GcMode} {fuel : Nat} {s : St} {starts live : List Nat}
    {s1 s2 : St} {ev1 ev2 : List MEvent}
    (hmode : mode ≠ .copySpace)
    (h0 : s.heap 0 = .nil)
    (hti : Tiling s.heap starts 1 s.top)
    (hsz : ∀ x ∈ starts, 0 < (s.heap x).size)
    (hml : markLive s.heap fuel s.roots = some live)
    (hsub : ∀ x ∈ live, x ∈ starts)
    (hfuel : starts.length < fuel)
    (hgc1 : Mem.gc mode fuel s = some (s1, ev1))
    (hgc2 : Mem.gc mode fuel s1 = some (s2, ev2)) :
    s2 = s1 := by
  cases mode with
  | copySpace => exact absurd rfl hmode
  | refCount =>
    simp only [Mem.gc, Option.some.injEq, Prod.mk.injEq] at hgc1 hgc2
    exact hgc2.1.symm
  | markSweep =>
    -- decompose the first run
    simp only [Mem.gc, bind, Option.bind_eq_some, pure, Option.some.injEq] at hgc1
    obtain ⟨lv, hlv, ⟨H3, EV3⟩, hswp, heq⟩ := hgc1
    rw [hml] at hlv
    injection hlv with hlv
    subst hlv
    -- evaluate the sweep walk
    have hsw := walkUpd_tiling (f := fun l o =>
        if live.contains l then (o, ([] : List MEvent))
        else (HObj.free o.size, [MEvent.freeMem l o.size]))
      starts s.heap 1 s.top fuel [] hti hsz hfuel
    have hswv := hsw.symm.trans hswp
    injection hswv with hswv
    rw [Prod.mk.injEq] at hswv
    obtain ⟨hH3, hEV3⟩ := hswv
    have hH3p : ∀ x, H3 x = if x ∈ starts then
        (if live.contains x then (s.heap x, ([] : List MEvent))
          else (HObj.free (s.heap x).size, [MEvent.freeMem x (s.heap x).size])).1
        else s.heap x := by
      intro x
      rw [← hH3]
    rw [Prod.mk.injEq] at heq
    obtain ⟨hs1, hev1⟩ := heq
    -- the swept heap agrees with the original on the live part
    have hagree : ∀ x ∈ live, H3 x = s.heap x := by
      intro x hx
      rw [hH3p x]
      by_cases hxs : x ∈ starts
      · rw [if_pos hxs, if_pos (natList_contains_iff.mpr hx)]
      · rw [if_neg hxs]
    have h0starts : (0 : Nat) ∉ starts := by
      intro hcon
      have := (Tiling.mem_bounds hti 0 hcon).1
      omega
    have hag0 : H3 0 = s.heap 0 := by
      rw [hH3p 0, if_neg h0starts]
    have hml2 : markLive H3 fuel s.roots = some live := markLive_congr hml hagree hag0
    -- the swept heap tiles the same way
    have hszH : ∀ x ∈ starts, (H3 x).size = (s.heap x).size := by
      intro x hxs
      rw [hH3p x, if_pos hxs]
      by_cases hxl : live.contains x
      · rw [if_pos hxl]
      · rw [if_neg hxl]
        rfl
    have htiH : Tiling H3 starts 1 s.top := Tiling.congr hti hszH
    have hszH2 : ∀ x ∈ starts, 0 < (H3 x).size := by
      intro x hxs
      rw [hszH x hxs]
      exact hsz x hxs
    -- decompose the second run
    simp only [Mem.gc, bind, Option.bind_eq_some, pure, Option.some.injEq] at hgc2
    obtain ⟨lv2, hlv2, ⟨H4, EV4⟩, hswp2, heq2⟩ := hgc2
    rw [← hs1] at hlv2 hswp2
    dsimp only at hlv2 hswp2
    rw [hml2] at hlv2
    injection hlv2 with hlv2
    subst hlv2
    have hsw2 := walkUpd_tiling (f := fun l o =>
        if live.contains l then (o, ([] : List MEvent))
        else (HObj.free o.size, [MEvent.freeMem l o.size]))
      starts H3 1 s.top fuel [] htiH hszH2 hfuel
    have hswv2 := hsw2.symm.trans hswp2
    injection hswv2 with hswv2
    rw [Prod.mk.injEq] at hswv2
    obtain ⟨hH4, hEV4⟩ := hswv2
    have hH4p : ∀ x, H4 x = if x ∈ starts then
        (if live.contains x then (H3 x, ([] : List MEvent))
          else (HObj.free (H3 x).size, [MEvent.freeMem x (H3 x).size])).1
        else H3 x := by
      intro x
      rw [← hH4]
    -- the second sweep changes nothing
    have hH4H3 : H4 = H3 := by
      funext x
      rw [hH4p x]
      by_cases hxs : x ∈ starts
      · rw [if_pos hxs]
        by_cases hxl : live.contains x
        · rw [if_pos hxl]
        · rw [if_neg hxl, hH3p x, if_pos hxs, if_neg hxl]
          rfl
      · rw [if_neg hxs]
    rw [Prod.mk.injEq] at heq2
    obtain ⟨hs2, hev2⟩ := heq2
    rw [← hs2, hH4H3, ← hs1]
  | markCompact =>
    have hgc1o := hgc1
    have hSsub : List.Sublist (survivorsOf live starts) starts := List.filter_sublist starts
    have hSpos : ∀ l ∈ (survivorsOf live starts), 0 < (s.heap l).size :=
      fun l hl => hsz l (hSsub.subset hl)
    have hstw := Tiling.append_split (h := s.heap)
      (by rw [List.takeWhile_append_dropWhile]; exact hti :
        Tiling s.heap ((starts.takeWhile (fun l => live.contains l)) ++ (starts.dropWhile (fun l => live.contains l))) 1 s.top)
      (fun x hx => hsz x ((List.takeWhile_prefix _).sublist.subset hx))
    obtain ⟨htw, hdw⟩ := hstw
    have hrest_sub : List.Sublist ((starts.dropWhile (fun l => live.contains l)).filter (fun l => live.contains l)) starts :=
      (List.filter_sublist _).trans (List.dropWhile_sublist _)
    have hrest_pos : ∀ x ∈ ((starts.dropWhile (fun l => live.contains l)).filter (fun l => live.contains l)), 0 < (s.heap x).size :=
      fun x hx => hsz x (hrest_sub.subset hx)
    have hrest_spread := (Tiling.pairwise_spread hti).sublist hrest_sub
    have hrest_gt := @rest_bounds s.heap live starts s.top hti hsz
    obtain ⟨hcore1, hcore2, hcore3⟩ := slide_core_gen htw hrest_pos hrest_spread hrest_gt
    have hS_eq : (survivorsOf live starts) = (starts.takeWhile (fun l => live.contains l)) ++ ((starts.dropWhile (fun l => live.contains l)).filter (fun l => live.contains l)) := survivorsOf_decomp live starts
    have hfw_eq : ((slideTargets s.heap (survivorsOf live starts) 1).drop (keepLenOf live starts)) = (slideTargets s.heap ((starts.dropWhile (fun l => live.contains l)).filter (fun l => live.contains l)) (1 + sizeSum s.heap (starts.takeWhile (fun l => live.contains l)))) := by
      rw [hS_eq, slideTargets_append]
      show (slideTargets s.heap (starts.takeWhile (fun l => live.contains l)) 1 ++
          slideTargets s.heap ((starts.dropWhile (fun l => live.contains l)).filter (fun l => live.contains l)) (1 + sizeSum s.heap (starts.takeWhile (fun l => live.contains l)))).drop ((starts.takeWhile (fun l => live.contains l)).length) = _
      rw [← slideTargets_length (h := s.heap) (starts.takeWhile (fun l => live.contains l)) 1]
      exact List.drop_left _ _
    have htg_core : ∀ q ∈ (slideTargets s.heap (survivorsOf live starts) 1), (locAfterMoveCompact (slideTargets s.heap ((starts.dropWhile (fun l => live.contains l)).filter (fun l => live.contains l)) (1 + sizeSum s.heap (starts.takeWhile (fun l => live.contains l))))) q.1 = q.2 ∧ (applySlides s.heap (slideTargets s.heap ((starts.dropWhile (fun l => live.contains l)).filter (fun l => live.contains l)) (1 + sizeSum s.heap (starts.takeWhile (fun l => live.contains l))))) q.2 = s.heap q.1 := by
      intro q hq
      rw [hS_eq] at hq
      exact hcore1 q hq
    -- decompose the first run
    simp only [Mem.gc, bind, Option.bind_eq_some, pure, Option.some.injEq] at hgc1
    obtain ⟨lv, hlv, r, hcomp, hif⟩ := hgc1
    rw [hml] at hlv
    injection hlv with hlv
    subst hlv
    have hspec := @compactGo_spec s.heap live s.top starts 1 fuel hti hsz hfuel
    rw [hfw_eq] at hspec
    have hr := hspec.symm.trans hcomp
    injection hr with hr
    subst hr
    dsimp only at hif
    by_cases hlt : (1 + sizeSum s.heap (survivorsOf live starts)) < s.top
    · -- something was freed: the slide moved the survivors down
      rw [if_pos hlt] at hif
      have hT_tiling : Tiling (applySlides s.heap (slideTargets s.heap ((starts.dropWhile (fun l => live.contains l)).filter (fun l => live.contains l)) (1 + sizeSum s.heap (starts.takeWhile (fun l => live.contains l))))) ((slideTargets s.heap (survivorsOf live starts) 1).map Prod.snd) 1 (1 + sizeSum s.heap (survivorsOf live starts)) :=
        tiling_slideTargets (survivorsOf live starts) 1 hSpos (fun q hq => by rw [(htg_core q hq).2])
      have hT_pos1 : ∀ t ∈ ((slideTargets s.heap (survivorsOf live starts) 1).map Prod.snd), 0 < ((applySlides s.heap (slideTargets s.heap ((starts.dropWhile (fun l => live.contains l)).filter (fun l => live.contains l)) (1 + sizeSum s.heap (starts.takeWhile (fun l => live.contains l))))) t).size := by
        intro t ht
        obtain ⟨q, hq, rfl⟩ := List.mem_map.mp ht
        rw [(htg_core q hq).2]
        exact hSpos q.1 (by rw [← slideTargets_fst (survivorsOf live starts) 1]; exact List.mem_map_of_mem Prod.fst hq)
      have hT_len : ((slideTargets s.heap (survivorsOf live starts) 1).map Prod.snd).length < fuel := by
        rw [List.length_map, slideTargets_length]
        have := hSsub.length_le
        omega
      have hwk := walkUpd_tiling (f := fun l o => (o.fixup (locAfterMoveCompact (slideTargets s.heap ((starts.dropWhile (fun l => live.contains l)).filter (fun l => live.contains l)) (1 + sizeSum s.heap (starts.takeWhile (fun l => live.contains l))))), ([] : List MEvent)))
        ((slideTargets s.heap (survivorsOf live starts) 1).map Prod.snd) (applySlides s.heap (slideTargets s.heap ((starts.dropWhile (fun l => live.contains l)).filter (fun l => live.contains l)) (1 + sizeSum s.heap (starts.takeWhile (fun l => live.contains l))))) 1 (1 + sizeSum s.heap (survivorsOf live starts)) fuel [] hT_tiling hT_pos1 hT_len
      obtain ⟨pr, hpr⟩ : ∃ pr, walkUpd (fun _ _ o => (o.fixup (locAfterMoveCompact (slideTargets s.heap ((starts.dropWhile (fun l => live.contains l)).filter (fun l => live.contains l)) (1 + sizeSum s.heap (starts.takeWhile (fun l => live.contains l))))), ([] : List MEvent)))
          fuel 1 (1 + sizeSum s.heap (survivorsOf live starts)) (applySlides s.heap (slideTargets s.heap ((starts.dropWhile (fun l => live.contains l)).filter (fun l => live.contains l)) (1 + sizeSum s.heap (starts.takeWhile (fun l => live.contains l))))) [] = some pr := ⟨_, hwk⟩
      obtain ⟨H2, EVW⟩ := pr
      have hwv := hwk.symm.trans hpr
      injection hwv with hwv
      rw [Prod.mk.injEq] at hwv
      obtain ⟨hH2, hEVW⟩ := hwv
      have hH2p : ∀ x, H2 x = if x ∈ ((slideTargets s.heap (survivorsOf live starts) 1).map Prod.snd) then (((applySlides s.heap (slideTargets s.heap ((starts.dropWhile (fun l => live.contains l)).filter (fun l => live.contains l)) (1 + sizeSum s.heap (starts.takeWhile (fun l => live.contains l))))) x).fixup (locAfterMoveCompact (slideTargets s.heap ((starts.dropWhile (fun l => live.contains l)).filter (fun l => live.contains l)) (1 + sizeSum s.heap (starts.takeWhile (fun l => live.contains l)))))) else (applySlides s.heap (slideTargets s.heap ((starts.dropWhile (fun l => live.contains l)).filter (fun l => live.contains l)) (1 + sizeSum s.heap (starts.takeWhile (fun l => live.contains l))))) x := by
        intro x
        rw [← hH2]
      rw [hpr] at hif
      injection hif with hif
      rw [Prod.mk.injEq] at hif
      obtain ⟨hs1, hev1⟩ := hif
      -- ingredients for the second run
      have hT_ge1 : ∀ t ∈ ((slideTargets s.heap (survivorsOf live starts) 1).map Prod.snd), 1 ≤ t := by
        intro t ht
        obtain ⟨q, hq, rfl⟩ := List.mem_map.mp ht
        exact slideTargets_tgt_ge _ 1 q hq
      have h0T : (0 : Nat) ∉ ((slideTargets s.heap (survivorsOf live starts) 1).map Prod.snd) := by
        intro hcon
        have := hT_ge1 0 hcon
        omega
      have h0rest : (0 : Nat) ∉ ((starts.dropWhile (fun l => live.contains l)).filter (fun l => live.contains l)) := by
        intro hcon
        have := hrest_gt 0 hcon
        omega
      have h02 : H2 0 = HObj.nil := by
        rw [hH2p 0, if_neg h0T, hcore3 0 (by omega), h0]
      have hres0 : (locAfterMoveCompact (slideTargets s.heap ((starts.dropWhile (fun l => live.contains l)).filter (fun l => live.contains l)) (1 + sizeSum s.heap (starts.takeWhile (fun l => live.contains l))))) 0 = 0 := hcore2 0 h0rest
      have hmemS : ∀ l ∈ live, l ∈ (survivorsOf live starts) := by
        intro l hl
        exact List.mem_filter.mpr ⟨hsub l hl, natList_contains_iff.mpr hl⟩
      have hassoc : ∀ l ∈ live, ∃ q ∈ (slideTargets s.heap (survivorsOf live starts) 1), q.1 = l := by
        intro l hl
        have : l ∈ (slideTargets s.heap (survivorsOf live starts) 1).map Prod.fst := by
          rw [slideTargets_fst (survivorsOf live starts) 1]
          exact hmemS l hl
        obtain ⟨q, hq, hq1⟩ := List.mem_map.mp this
        exact ⟨q, hq, hq1⟩
      have hTfix : ∀ l ∈ live, H2 ((locAfterMoveCompact (slideTargets s.heap ((starts.dropWhile (fun l => live.contains l)).filter (fun l => live.contains l)) (1 + sizeSum s.heap (starts.takeWhile (fun l => live.contains l))))) l) = (s.heap l).fixup (locAfterMoveCompact (slideTargets s.heap ((starts.dropWhile (fun l => live.contains l)).filter (fun l => live.contains l)) (1 + sizeSum s.heap (starts.takeWhile (fun l => live.contains l))))) := by
        intro l hl
        obtain ⟨q, hq, rfl⟩ := hassoc l hl
        rw [(htg_core q hq).1, hH2p q.2,
          if_pos (List.mem_map_of_mem Prod.snd hq), (htg_core q hq).2]
      have htg_fst_lt : ((slideTargets s.heap (survivorsOf live starts) 1).map Prod.fst).Pairwise (fun a b => a < b) := by
        rw [slideTargets_fst (survivorsOf live starts) 1]
        refine ((Tiling.pairwise_spread hti).sublist hSsub).imp_of_mem ?_
        intro a b ha _ hr
        have := hSpos a ha
        omega
      have htg_snd_lt : ((slideTargets s.heap (survivorsOf live starts) 1).map Prod.snd).Pairwise (fun a b => a < b) :=
        slideTargets_snd_pairwise (survivorsOf live starts) 1 hSpos
      have hmono : ∀ a ∈ live, ∀ b ∈ live, a < b → (locAfterMoveCompact (slideTargets s.heap ((starts.dropWhile (fun l => live.contains l)).filter (fun l => live.contains l)) (1 + sizeSum s.heap (starts.takeWhile (fun l => live.contains l))))) a < (locAfterMoveCompact (slideTargets s.heap ((starts.dropWhile (fun l => live.contains l)).filter (fun l => live.contains l)) (1 + sizeSum s.heap (starts.takeWhile (fun l => live.contains l))))) b := by
        intro a ha b hb hab
        obtain ⟨qa, hqa, rfl⟩ := hassoc a ha
        obtain ⟨qb, hqb, rfl⟩ := hassoc b hb
        rw [(htg_core qa hqa).1, (htg_core qb hqb).1]
        exact pairs_mono htg_fst_lt htg_snd_lt qa hqa qb hqb hab
      have hnz : ∀ l ∈ live, (locAfterMoveCompact (slideTargets s.heap ((starts.dropWhile (fun l => live.contains l)).filter (fun l => live.contains l)) (1 + sizeSum s.heap (starts.takeWhile (fun l => live.contains l))))) l ≠ 0 := by
        intro l hl
        obtain ⟨q, hq, rfl⟩ := hassoc l hl
        rw [(htg_core q hq).1]
        have := hT_ge1 q.2 (List.mem_map_of_mem Prod.snd hq)
        omega
      have hml2 : markLive H2 fuel (s.roots.map (locAfterMoveCompact (slideTargets s.heap ((starts.dropWhile (fun l => live.contains l)).filter (fun l => live.contains l)) (1 + sizeSum s.heap (starts.takeWhile (fun l => live.contains l)))))) = some (live.map (locAfterMoveCompact (slideTargets s.heap ((starts.dropWhile (fun l => live.contains l)).filter (fun l => live.contains l)) (1 + sizeSum s.heap (starts.takeWhile (fun l => live.contains l)))))) :=
        markLive_fixup hml h0 h02 hres0 hTfix hmono hnz
      -- the second compaction finds every target live and in place
      have hszH2T : ∀ q ∈ (slideTargets s.heap (survivorsOf live starts) 1), (H2 q.2).size = (s.heap q.1).size := by
        intro q hq
        rw [hH2p q.2, if_pos (List.mem_map_of_mem Prod.snd hq), HObj.size_fixup,
          (htg_core q hq).2]
      have hT_tiling2 : Tiling H2 ((slideTargets s.heap (survivorsOf live starts) 1).map Prod.snd) 1 (1 + sizeSum s.heap (survivorsOf live starts)) := by
        refine Tiling.congr hT_tiling ?_
        intro x hx
        obtain ⟨q, hq, rfl⟩ := List.mem_map.mp hx
        rw [hszH2T q hq, (htg_core q hq).2]
      have hT_pos2 : ∀ t ∈ ((slideTargets s.heap (survivorsOf live starts) 1).map Prod.snd), 0 < (H2 t).size := by
        intro t ht
        obtain ⟨q, hq, rfl⟩ := List.mem_map.mp ht
        rw [hszH2T q hq]
        exact hSpos q.1 (by rw [← slideTargets_fst (survivorsOf live starts) 1]; exact List.mem_map_of_mem Prod.fst hq)
      have hall2 : ∀ t ∈ ((slideTargets s.heap (survivorsOf live starts) 1).map Prod.snd), (live.map (locAfterMoveCompact (slideTargets s.heap ((starts.dropWhile (fun l => live.contains l)).filter (fun l => live.contains l)) (1 + sizeSum s.heap (starts.takeWhile (fun l => live.contains l)))))).contains t = true := by
        intro t ht
        obtain ⟨q, hq, rfl⟩ := List.mem_map.mp ht
        have hq1S : q.1 ∈ (survivorsOf live starts) := by
          rw [← slideTargets_fst (survivorsOf live starts) 1]
          exact List.mem_map_of_mem Prod.fst hq
        have hq1live : q.1 ∈ live := natList_contains_iff.mp (List.mem_filter.mp hq1S).2
        exact natList_contains_iff.mpr
          (List.mem_map.mpr ⟨q.1, hq1live, (htg_core q hq).1⟩)
      have hspec2 := @compactGo_spec H2 (live.map (locAfterMoveCompact (slideTargets s.heap ((starts.dropWhile (fun l => live.contains l)).filter (fun l => live.contains l)) (1 + sizeSum s.heap (starts.takeWhile (fun l => live.contains l)))))) (1 + sizeSum s.heap (survivorsOf live starts)) ((slideTargets s.heap (survivorsOf live starts) 1).map Prod.snd) 1 fuel
        hT_tiling2 hT_pos2 hT_len
      have hsurv2 : survivorsOf (live.map (locAfterMoveCompact (slideTargets s.heap ((starts.dropWhile (fun l => live.contains l)).filter (fun l => live.contains l)) (1 + sizeSum s.heap (starts.takeWhile (fun l => live.contains l)))))) ((slideTargets s.heap (survivorsOf live starts) 1).map Prod.snd) = ((slideTargets s.heap (survivorsOf live starts) 1).map Prod.snd) := by
        unfold survivorsOf
        exact List.filter_eq_self.mpr hall2
      have hkeep2 : keepLenOf (live.map (locAfterMoveCompact (slideTargets s.heap ((starts.dropWhile (fun l => live.contains l)).filter (fun l => live.contains l)) (1 + sizeSum s.heap (starts.takeWhile (fun l => live.contains l)))))) ((slideTargets s.heap (survivorsOf live starts) 1).map Prod.snd) = ((slideTargets s.heap (survivorsOf live starts) 1).map Prod.snd).length := by
        unfold keepLenOf
        rw [takeWhile_eq_self_of_forall hall2]
      have hsize2 : sizeSum H2 ((slideTargets s.heap (survivorsOf live starts) 1).map Prod.snd) = sizeSum s.heap (survivorsOf live starts) :=
        sizeSum_targets (survivorsOf live starts) 1 hszH2T
      rw [hsurv2, hkeep2, hsize2, ← slideTargets_length (h := H2) ((slideTargets s.heap (survivorsOf live starts) 1).map Prod.snd) 1,
        List.drop_length] at hspec2
      -- decompose the second run
      rw [← hs1] at hgc2
      simp only [Mem.gc, bind, Option.bind_eq_some, pure, Option.some.injEq] at hgc2
      obtain ⟨lv2, hlv2, r2, hcomp2, hif2⟩ := hgc2
      rw [hml2] at hlv2
      injection hlv2 with hlv2
      subst hlv2
      have hr2 := hspec2.symm.trans hcomp2
      injection hr2 with hr2
      subst hr2
      dsimp only at hif2
      rw [if_neg (by omega : ¬ (1 + sizeSum s.heap (survivorsOf live starts)) < (1 + sizeSum s.heap (survivorsOf live starts)))] at hif2
      injection hif2 with hif2
      rw [Prod.mk.injEq] at hif2
      obtain ⟨hs2, hev2⟩ := hif2
      rw [← hs2, ← hs1]
      rfl
    · -- nothing was freed: the state is returned unchanged
      rw [if_neg hlt] at hif
      have hsum_starts : 1 + sizeSum s.heap starts = s.top := Tiling.sum hti
      have hle := sizeSum_sublist_le (h := s.heap) hSsub
      have hSeq : (survivorsOf live starts) = starts := sizeSum_sublist_eq hSsub hsz (by omega)
      have hallp : ∀ a ∈ starts, live.contains a = true := by
        intro a ha
        have haS : a ∈ (survivorsOf live starts) := by rw [hSeq]; exact ha
        exact (List.mem_filter.mp haS).2
      have htw_all : (starts.takeWhile (fun l => live.contains l)) = starts := takeWhile_eq_self_of_forall hallp
      have hdw_nil : starts.dropWhile (fun l => live.contains l) = [] := by
        have hlen := congrArg List.length (List.takeWhile_append_dropWhile
          (p := fun l => live.contains l) (l := starts))
        rw [List.length_append, htw_all] at hlen
        have h5 : (starts.dropWhile (fun l => live.contains l)).length = 0 := by omega
        exact List.length_eq_zero.mp h5
      have hfw_nil : (slideTargets s.heap ((starts.dropWhile (fun l => live.contains l)).filter (fun l => live.contains l)) (1 + sizeSum s.heap (starts.takeWhile (fun l => live.contains l)))) = ([] : List (Nat × Nat)) := by
        rw [hdw_nil]
        rfl
      rw [hfw_nil] at hif
      have htop1 : (1 + sizeSum s.heap (survivorsOf live starts)) = s.top := by
        rw [hSeq]
        exact hsum_starts
      injection hif with hif
      rw [Prod.mk.injEq] at hif
      obtain ⟨hs1, hev1⟩ := hif
      have hs1s : s1 = s := by
        rw [← hs1]
        show ({ heap := s.heap, top := (1 + sizeSum s.heap (survivorsOf live starts)), roots := s.roots } : St) = s
        rw [htop1]
      rw [hs1s] at hgc2
      rw [hgc1o] at hgc2
      injection hgc2 with hgc2
      rw [Prod.mk.injEq] at hgc2
      obtain ⟨ha, hb⟩ := hgc2
      rw [← ha, hs1s]


/-- Witness for C4: on the three-number state a second mark-compact
collection returns exactly the state of the first. -/
theorem gc_idempotent_witness :
    ∃ p q : St × List MEvent,
      Mem.gc .markCompact 10 exMCSt = some p ∧
      Mem.gc .markCompact 10 p.1 = some q ∧ q.1 = p.1 := by
  have h1 : Mem.gc .markCompact 10 exMCSt =
      some ((Mem.gc .markCompact 10 exMCSt).getD (exMCSt, [])) := rfl
  have h2 : Mem.gc .markCompact 10 ((Mem.gc .markCompact 10 exMCSt).getD (exMCSt, [])).1 =
      some ((Mem.gc .markCompact 10
        ((Mem.gc .markCompact 10 exMCSt).getD (exMCSt, [])).1).getD (exMCSt, [])) := rfl
  have hti : Tiling exMCSt.heap [1, 3, 5] 1 exMCSt.top :=
    ⟨by decide, by decide, by decide, by decide, by decide, by decide,
     (by decide : 1 + (exMCSt.heap 1).size + (exMCSt.heap 3).size +
        (exMCSt.heap 5).size = exMCSt.top)⟩
  refine ⟨_, _, h1, h2, ?_⟩
  exact @gc_idempotent .markCompact 10 exMCSt [1, 3, 5] [1, 5] _ _ _ _
    (fun hcon => Mem.GcMode.noConfusion hcon) (by decide) hti (by decide) (by decide)
    (by decide) (by decide) h1 h2


/-- C8 (amended): when `push` is called on a `Vec` whose length equals
the capacity of its backing `Tup` and that length is at least one, it
reserves a new backing of capacity twice the current one at `top`,
copies the old contents, gives the new backing count 1, bumps the
pushed value, drops the old backing to count 0 and frees it, rebinds
the vector, stores the value at the old length, and increments the
length; every other location and count is untouched.  (With length 0
the same path aborts; see the counterexample.) -/
theorem vecRef_push_grow {fuel : Nat} {st : RSt} {vecLoc t objLoc len : Nat}
    {slots : List Nat}
    (hvec : st.heap vecLoc = .vec len t)
    (htup : st.heap t = .tup slots)
    (hlen : slots.length = len)
    (hlen1 : 1 ≤ len)
    (hrct : st.rc t = 1)
    (htopH : st.top + (2 + 2 * len) < HeapSize)
    (htop1 : 1 ≤ st.top)
    (hfv : vecLoc < st.top) (hft : t < st.top) (hfo : objLoc < st.top)
    (hfs : ∀ s ∈ slots, s < st.top)
    (ht0 : t ≠ 0) (ho0 : objLoc ≠ 0)
    (hvt : vecLoc ≠ t) (hot : objLoc ≠ t) (hov : objLoc ≠ vecLoc)
    (htns : t ∉ slots)
    (hinv : ∀ s, s ≠ 0 → s ∈ slots → 1 ≤ st.rc s ∧ st.rc s + slots.count s ≤ 255)
    (hrco : st.rc objLoc ≤ 254)
    (hfuel : slots.length + 3 ≤ fuel) :
    ∃ st2, VecRef.push fuel st vecLoc objLoc = some st2 ∧
      st2.top = st.top + (2 + 2 * len) ∧
      st2.heap st.top = .tup ((slots ++ List.replicate len 0).set len objLoc) ∧
      st2.heap t = .free (2 + len) ∧
      st2.heap vecLoc = .vec (len + 1) st.top ∧
      (∀ x, x ≠ st.top → x ≠ t → x ≠ vecLoc → st2.heap x = st.heap x) ∧
      st2.rc st.top = 1 ∧
      st2.rc t = 0 ∧
      st2.rc objLoc = st.rc objLoc + 1 ∧
      (∀ x, x ≠ st.top → x ≠ t → x ≠ objLoc → st2.rc x = st.rc x) := by
  have h2000 : HeapSize = 2000 := rfl
  have hne_t_top : t ≠ st.top := Nat.ne_of_lt hft
  have hne_top_t : st.top ≠ t := (Nat.ne_of_lt hft).symm
  have hne_v_top : vecLoc ≠ st.top := Nat.ne_of_lt hfv
  have hne_top_v : st.top ≠ vecLoc := (Nat.ne_of_lt hfv).symm
  have hne_o_top : objLoc ≠ st.top := Nat.ne_of_lt hfo
  have hne_top_o : st.top ≠ objLoc := (Nat.ne_of_lt hfo).symm
  have hne_0_top : (0 : Nat) ≠ st.top := Nat.ne_of_lt htop1
  have hne_t_v : t ≠ vecLoc := fun hc => hvt hc.symm
  have hne_t_o : t ≠ objLoc := fun hc => hot hc.symm
  have hNSrepl : 2 * len - slots.length = len := by omega
  have hNSlen : (slots ++ List.replicate (2 * len - slots.length) 0).length = 2 * len := by
    rw [List.length_append, List.length_replicate]
    omega
  have htNS : t ∉ (slots ++ List.replicate (2 * len - slots.length) 0) := by
    intro hc
    rcases List.mem_append.mp hc with hc | hc
    · exact htns hc
    · exact ht0 (List.eq_of_mem_replicate hc)
  have hTopNS : st.top ∉ (slots ++ List.replicate (2 * len - slots.length) 0) := by
    intro hc
    rcases List.mem_append.mp hc with hc | hc
    · have := hfs _ hc
      omega
    · have := List.eq_of_mem_replicate hc
      omega
  have hmemNS : ∀ x, x ≠ 0 → x ∈ (slots ++ List.replicate (2 * len - slots.length) 0) → x ∈ slots := by
    intro x hx hc
    rcases List.mem_append.mp hc with hc | hc
    · exact hc
    · exact absurd (List.eq_of_mem_replicate hc) hx
  have hcountNS : ∀ x, x ≠ 0 → (slots ++ List.replicate (2 * len - slots.length) 0).count x = slots.count x := by
    intro x hx
    rw [List.count_append, List.count_replicate,
      if_neg (by simp only [beq_iff_eq]; exact fun hc => hx hc.symm)]
    omega
  have hRC2 : ∀ x, ((slots ++ List.replicate (2 * len - slots.length) 0).foldl (fun rc s => if s ≠ 0 then Function.update rc s ((rc s + 1) % 256) else rc) (Function.update st.rc st.top 1)) x =
      if x ≠ 0 ∧ x ∈ (slots ++ List.replicate (2 * len - slots.length) 0) then ((Function.update st.rc st.top 1) x + (slots ++ List.replicate (2 * len - slots.length) 0).count x) % 256 else (Function.update st.rc st.top 1) x :=
    fun x => incFold_rc (slots ++ List.replicate (2 * len - slots.length) 0) (Function.update st.rc st.top 1) x
  have hRC2top : ∀ x, x = st.top → ((slots ++ List.replicate (2 * len - slots.length) 0).foldl (fun rc s => if s ≠ 0 then Function.update rc s ((rc s + 1) % 256) else rc) (Function.update st.rc st.top 1)) x = 1 := by
    intro x hx
    subst hx
    rw [hRC2, if_neg (fun hc => hTopNS hc.2), Function.update_same]
  have hRC2t : ∀ x, x = t → ((slots ++ List.replicate (2 * len - slots.length) 0).foldl (fun rc s => if s ≠ 0 then Function.update rc s ((rc s + 1) % 256) else rc) (Function.update st.rc st.top 1)) x = 1 := by
    intro x hx
    subst hx
    rw [hRC2, if_neg (fun hc => htNS hc.2), Function.update_noteq hne_t_top, hrct]
  have hRC4 : ∀ x, x ≠ st.top → (Function.update (Function.update ((slots ++ List.replicate (2 * len - slots.length) 0).foldl (fun rc s => if s ≠ 0 then Function.update rc s ((rc s + 1) % 256) else rc) (Function.update st.rc st.top 1)) st.top ((((slots ++ List.replicate (2 * len - slots.length) 0).foldl (fun rc s => if s ≠ 0 then Function.update rc s ((rc s + 1) % 256) else rc) (Function.update st.rc st.top 1)) st.top + 1) % 256)) st.top (((Function.update ((slots ++ List.replicate (2 * len - slots.length) 0).foldl (fun rc s => if s ≠ 0 then Function.update rc s ((rc s + 1) % 256) else rc) (Function.update st.rc st.top 1)) st.top ((((slots ++ List.replicate (2 * len - slots.length) 0).foldl (fun rc s => if s ≠ 0 then Function.update rc s ((rc s + 1) % 256) else rc) (Function.update st.rc st.top 1)) st.top + 1) % 256)) st.top + 255) % 256)) x = ((slots ++ List.replicate (2 * len - slots.length) 0).foldl (fun rc s => if s ≠ 0 then Function.update rc s ((rc s + 1) % 256) else rc) (Function.update st.rc st.top 1)) x := by
    intro x hx
    rw [Function.update_noteq hx, Function.update_noteq hx]
  have hRC4top : ∀ x, x = st.top → (Function.update (Function.update ((slots ++ List.replicate (2 * len - slots.length) 0).foldl (fun rc s => if s ≠ 0 then Function.update rc s ((rc s + 1) % 256) else rc) (Function.update st.rc st.top 1)) st.top ((((slots ++ List.replicate (2 * len - slots.length) 0).foldl (fun rc s => if s ≠ 0 then Function.update rc s ((rc s + 1) % 256) else rc) (Function.update st.rc st.top 1)) st.top + 1) % 256)) st.top (((Function.update ((slots ++ List.replicate (2 * len - slots.length) 0).foldl (fun rc s => if s ≠ 0 then Function.update rc s ((rc s + 1) % 256) else rc) (Function.update st.rc st.top 1)) st.top ((((slots ++ List.replicate (2 * len - slots.length) 0).foldl (fun rc s => if s ≠ 0 then Function.update rc s ((rc s + 1) % 256) else rc) (Function.update st.rc st.top 1)) st.top + 1) % 256)) st.top + 255) % 256)) x = 1 := by
    intro x hx
    subst hx
    rw [Function.update_same, Function.update_same, hRC2top st.top rfl]
  have hRC4t : ∀ x, x = t → (Function.update (Function.update ((slots ++ List.replicate (2 * len - slots.length) 0).foldl (fun rc s => if s ≠ 0 then Function.update rc s ((rc s + 1) % 256) else rc) (Function.update st.rc st.top 1)) st.top ((((slots ++ List.replicate (2 * len - slots.length) 0).foldl (fun rc s => if s ≠ 0 then Function.update rc s ((rc s + 1) % 256) else rc) (Function.update st.rc st.top 1)) st.top + 1) % 256)) st.top (((Function.update ((slots ++ List.replicate (2 * len - slots.length) 0).foldl (fun rc s => if s ≠ 0 then Function.update rc s ((rc s + 1) % 256) else rc) (Function.update st.rc st.top 1)) st.top ((((slots ++ List.replicate (2 * len - slots.length) 0).foldl (fun rc s => if s ≠ 0 then Function.update rc s ((rc s + 1) % 256) else rc) (Function.update st.rc st.top 1)) st.top + 1) % 256)) st.top + 255) % 256)) x = 1 := by
    intro x hx
    subst hx
    rw [hRC4 x hne_t_top, hRC2t x rfl]
  have hRC2other : ∀ x, x ≠ 0 → x ≠ st.top → ((slots ++ List.replicate (2 * len - slots.length) 0).foldl (fun rc s => if s ≠ 0 then Function.update rc s ((rc s + 1) % 256) else rc) (Function.update st.rc st.top 1)) x = st.rc x + slots.count x := by
    intro x hx0 hxtop
    rw [hRC2]
    by_cases hmem : x ∈ (slots ++ List.replicate (2 * len - slots.length) 0)
    · rw [if_pos ⟨hx0, hmem⟩, Function.update_noteq hxtop, hcountNS x hx0]
      have h6 := hinv x hx0 (hmemNS x hx0 hmem)
      rw [Nat.mod_eq_of_lt (by omega)]
    · rw [if_neg (fun hc => hmem hc.2), Function.update_noteq hxtop,
        List.count_eq_zero.mpr (fun hc => hmem (List.mem_append.mpr (Or.inl hc)))]
      omega
  have hRC20 : ∀ x, x = 0 → ((slots ++ List.replicate (2 * len - slots.length) 0).foldl (fun rc s => if s ≠ 0 then Function.update rc s ((rc s + 1) % 256) else rc) (Function.update st.rc st.top 1)) x = st.rc 0 := by
    intro x hx
    subst hx
    rw [hRC2, if_neg (by simp), Function.update_noteq hne_0_top]
  obtain ⟨stU, hUrun, hUheap, hUrc, hUrct, hUrc0, hUtop⟩ :=
    @rcStep_unshare_free fuel { heap := Function.update st.heap st.top (HObj.tup (slots ++ List.replicate (2 * len - slots.length) 0)), rc := (Function.update (Function.update ((slots ++ List.replicate (2 * len - slots.length) 0).foldl (fun rc s => if s ≠ 0 then Function.update rc s ((rc s + 1) % 256) else rc) (Function.update st.rc st.top 1) : Nat → Nat) st.top ((((slots ++ List.replicate (2 * len - slots.length) 0).foldl (fun rc s => if s ≠ 0 then Function.update rc s ((rc s + 1) % 256) else rc) (Function.update st.rc st.top 1) : Nat → Nat) st.top + 1) % 256) : Nat → Nat) st.top (((Function.update ((slots ++ List.replicate (2 * len - slots.length) 0).foldl (fun rc s => if s ≠ 0 then Function.update rc s ((rc s + 1) % 256) else rc) (Function.update st.rc st.top 1) : Nat → Nat) st.top ((((slots ++ List.replicate (2 * len - slots.length) 0).foldl (fun rc s => if s ≠ 0 then Function.update rc s ((rc s + 1) % 256) else rc) (Function.update st.rc st.top 1) : Nat → Nat) st.top + 1) % 256) : Nat → Nat) st.top + 255) % 256) : Nat → Nat), top := st.top + (2 + 2 * len) } t slots
      (by dsimp only; rw [Function.update_noteq hne_t_top]; exact htup)
      (by dsimp only; exact hRC4t t rfl)
      ht0 htns hfuel
      (by
        intro s hs0 hsmem
        dsimp only
        have hstop : s ≠ st.top := Nat.ne_of_lt (hfs s hsmem)
        rw [hRC4 s hstop, hRC2other s hs0 hstop]
        have h6 := hinv s hs0 hsmem
        omega)
  have hUtop2 : stU.top = st.top + (2 + 2 * len) := hUtop
  have hUrc02 : stU.rc 0 = st.rc 0 := by
    rw [hUrc0]
    show (Function.update (Function.update ((slots ++ List.replicate (2 * len - slots.length) 0).foldl (fun rc s => if s ≠ 0 then Function.update rc s ((rc s + 1) % 256) else rc) (Function.update st.rc st.top 1) : Nat → Nat) st.top ((((slots ++ List.replicate (2 * len - slots.length) 0).foldl (fun rc s => if s ≠ 0 then Function.update rc s ((rc s + 1) % 256) else rc) (Function.update st.rc st.top 1) : Nat → Nat) st.top + 1) % 256) : Nat → Nat) st.top (((Function.update ((slots ++ List.replicate (2 * len - slots.length) 0).foldl (fun rc s => if s ≠ 0 then Function.update rc s ((rc s + 1) % 256) else rc) (Function.update st.rc st.top 1) : Nat → Nat) st.top ((((slots ++ List.replicate (2 * len - slots.length) 0).foldl (fun rc s => if s ≠ 0 then Function.update rc s ((rc s + 1) % 256) else rc) (Function.update st.rc st.top 1) : Nat → Nat) st.top + 1) % 256) : Nat → Nat) st.top + 255) % 256) : Nat → Nat) 0 = st.rc 0
    rw [hRC4 0 hne_0_top, hRC20 0 rfl]
  clear hUtop hUrc0
  have hST6new : ({ heap := Function.update stU.heap vecLoc (setVecTup (stU.heap vecLoc) st.top), rc := stU.rc, top := stU.top } : RSt).heap st.top = .tup (slots ++ List.replicate (2 * len - slots.length) 0) := by
    dsimp only
    rw [Function.update_noteq hne_top_v, hUheap, Function.update_noteq hne_top_t]
    dsimp only
    rw [Function.update_same]
  have hset := @tupSet_zero_slot fuel { heap := Function.update stU.heap vecLoc (setVecTup (stU.heap vecLoc) st.top), rc := stU.rc, top := stU.top } st.top len objLoc (slots ++ List.replicate (2 * len - slots.length) 0) hST6new
    (by rw [hNSlen]; omega)
    (by
      rw [List.getD_eq_getElem?_getD, List.getElem?_append_right (by omega),
        List.getElem?_replicate, if_pos (by omega)]
      rfl)
    (by omega)
  have hres : Mem.reserve st.top (2 + 2 * len) = some (st.top, st.top + (2 + 2 * len)) := by
    unfold Mem.reserve
    rw [Nat.mod_eq_of_lt (by omega), if_pos (by omega)]
  refine ⟨{ heap := Function.update (Function.update (Function.update stU.heap vecLoc (setVecTup (stU.heap vecLoc) st.top)) st.top (HObj.tup ((slots ++ List.replicate (2 * len - slots.length) 0).set len objLoc))) vecLoc (HObj.vec (len + 1) st.top), rc := Function.update stU.rc objLoc ((stU.rc objLoc + 1) % 256), top := stU.top }, ?_, ?_, ?_, ?_, ?_, ?_, ?_, ?_, ?_, ?_⟩
  · show VecRef.push fuel st vecLoc objLoc = some _
    simp only [VecRef.push, bind]
    rw [hvec]
    dsimp only
    rw [htup]
    dsimp only
    rw [if_pos hlen, hres, Option.some_bind]
    dsimp only
    rw [hUrun, Option.some_bind]
    dsimp only
    rw [hset, Option.some_bind]
    dsimp only
    rfl
  · show stU.top = _
    exact hUtop2
  · show Function.update _ vecLoc _ st.top = _
    rw [Function.update_noteq hne_top_v, Function.update_same]
    rw [show (slots ++ List.replicate (2 * len - slots.length) 0) = slots ++ List.replicate len 0 from by rw [hNSrepl]]
  · show Function.update _ vecLoc _ t = _
    rw [Function.update_noteq hne_t_v, Function.update_noteq hne_t_top,
      Function.update_noteq hne_t_v, hUheap, Function.update_same, hlen]
  · show Function.update _ vecLoc _ vecLoc = _
    rw [Function.update_same]
  · intro x hxn hxt hxv
    show Function.update _ vecLoc _ x = _
    rw [Function.update_noteq hxv, Function.update_noteq hxn,
      Function.update_noteq hxv, hUheap, Function.update_noteq hxt]
    dsimp only
    rw [Function.update_noteq hxn]
  · show Function.update stU.rc objLoc _ st.top = _
    rw [Function.update_noteq hne_top_o, hUrc st.top (Nat.ne_of_lt htop1).symm hne_top_t,
      List.count_eq_zero.mpr (fun hc => (Nat.ne_of_lt (hfs _ hc)) rfl)]
    show (Function.update (Function.update ((slots ++ List.replicate (2 * len - slots.length) 0).foldl (fun rc s => if s ≠ 0 then Function.update rc s ((rc s + 1) % 256) else rc) (Function.update st.rc st.top 1) : Nat → Nat) st.top ((((slots ++ List.replicate (2 * len - slots.length) 0).foldl (fun rc s => if s ≠ 0 then Function.update rc s ((rc s + 1) % 256) else rc) (Function.update st.rc st.top 1) : Nat → Nat) st.top + 1) % 256) : Nat → Nat) st.top (((Function.update ((slots ++ List.replicate (2 * len - slots.length) 0).foldl (fun rc s => if s ≠ 0 then Function.update rc s ((rc s + 1) % 256) else rc) (Function.update st.rc st.top 1) : Nat → Nat) st.top ((((slots ++ List.replicate (2 * len - slots.length) 0).foldl (fun rc s => if s ≠ 0 then Function.update rc s ((rc s + 1) % 256) else rc) (Function.update st.rc st.top 1) : Nat → Nat) st.top + 1) % 256) : Nat → Nat) st.top + 255) % 256) : Nat → Nat) st.top - 0 = 1
    rw [hRC4top st.top rfl]
  · show Function.update stU.rc objLoc _ t = _
    rw [Function.update_noteq hne_t_o, hUrct]
  · show Function.update stU.rc objLoc _ objLoc = _
    rw [Function.update_same, hUrc objLoc ho0 hot]
    show ((Function.update (Function.update ((slots ++ List.replicate (2 * len - slots.length) 0).foldl (fun rc s => if s ≠ 0 then Function.update rc s ((rc s + 1) % 256) else rc) (Function.update st.rc st.top 1) : Nat → Nat) st.top ((((slots ++ List.replicate (2 * len - slots.length) 0).foldl (fun rc s => if s ≠ 0 then Function.update rc s ((rc s + 1) % 256) else rc) (Function.update st.rc st.top 1) : Nat → Nat) st.top + 1) % 256) : Nat → Nat) st.top (((Function.update ((slots ++ List.replicate (2 * len - slots.length) 0).foldl (fun rc s => if s ≠ 0 then Function.update rc s ((rc s + 1) % 256) else rc) (Function.update st.rc st.top 1) : Nat → Nat) st.top ((((slots ++ List.replicate (2 * len - slots.length) 0).foldl (fun rc s => if s ≠ 0 then Function.update rc s ((rc s + 1) % 256) else rc) (Function.update st.rc st.top 1) : Nat → Nat) st.top + 1) % 256) : Nat → Nat) st.top + 255) % 256) : Nat → Nat) objLoc - slots.count objLoc + 1) % 256 = st.rc objLoc + 1
    rw [hRC4 objLoc hne_o_top, hRC2other objLoc ho0 hne_o_top]
    have h7 : slots.count objLoc + st.rc objLoc ≤ 255 ∨ slots.count objLoc = 0 := by
      by_cases hmem : objLoc ∈ slots
      · have := hinv objLoc ho0 hmem
        omega
      · exact Or.inr (List.count_eq_zero.mpr hmem)
    rw [Nat.mod_eq_of_lt (by rcases h7 with h7 | h7 <;> omega)]
    omega
  · intro x hxn hxt hxo
    show Function.update stU.rc objLoc _ x = _
    rw [Function.update_noteq hxo]
    by_cases hx0 : x = 0
    · subst hx0
      rw [hUrc02]
    · rw [hUrc x hx0 hxt]
      show (Function.update (Function.update ((slots ++ List.replicate (2 * len - slots.length) 0).foldl (fun rc s => if s ≠ 0 then Function.update rc s ((rc s + 1) % 256) else rc) (Function.update st.rc st.top 1) : Nat → Nat) st.top ((((slots ++ List.replicate (2 * len - slots.length) 0).foldl (fun rc s => if s ≠ 0 then Function.update rc s ((rc s + 1) % 256) else rc) (Function.update st.rc st.top 1) : Nat → Nat) st.top + 1) % 256) : Nat → Nat) st.top (((Function.update ((slots ++ List.replicate (2 * len - slots.length) 0).foldl (fun rc s => if s ≠ 0 then Function.update rc s ((rc s + 1) % 256) else rc) (Function.update st.rc st.top 1) : Nat → Nat) st.top ((((slots ++ List.replicate (2 * len - slots.length) 0).foldl (fun rc s => if s ≠ 0 then Function.update rc s ((rc s + 1) % 256) else rc) (Function.update st.rc st.top 1) : Nat → Nat) st.top + 1) % 256) : Nat → Nat) st.top + 255) % 256) : Nat → Nat) x - slots.count x = st.rc x
      rw [hRC4 x hxn, hRC2other x hx0 hxn]
      omega

/-- C8, counterexample: on a vector of length 0 whose backing capacity
is 0, the length equals the capacity and the claim promises a
successful grow to capacity 0, but the path ends in
`tup->set(0, obj)`, which asserts `0 < len` on the fresh zero-capacity
backing and aborts. -/
theorem vecRef_push_empty_counterexample :
    exRcPushEmpty.heap 2 = .vec 0 1 ∧ exRcPushEmpty.heap 1 = .tup [] ∧
    VecRef.push 10 exRcPushEmpty 2 5 = none := by
  exact ⟨by decide, by decide, rfl⟩

/-- Witness for C8: pushing the number at 8 onto the full one-element
vector grows the backing to capacity two at the old top. -/
theorem vecRef_push_grow_witness :
    ∃ st2, VecRef.push 10 exRcPush 5 8 = some st2 ∧
      st2.top = 14 ∧
      st2.heap 10 = .tup [1, 8] ∧
      st2.heap 3 = .free 3 ∧
      st2.heap 5 = .vec 2 10 ∧
      st2.rc 10 = 1 ∧ st2.rc 3 = 0 ∧ st2.rc 8 = 2 := by
  obtain ⟨st2, h1, h2, h3, h4, h5, h6, h7, h8, h9, h10⟩ :=
    @vecRef_push_grow 10 exRcPush 5 3 8 1 [1] (by decide) (by decide) (by decide)
      (by decide) (by decide) (by decide) (by decide) (by decide) (by decide)
      (by decide) (by decide) (by decide) (by decide) (by decide) (by decide)
      (by decide) (by decide)
      (by
        intro s hs0 hsmem
        simp only [List.mem_singleton] at hsmem
        subst hsmem
        exact ⟨by decide, by decide⟩)
      (by decide) (by decide)
  exact ⟨st2, h1, h2, h3, h4, h5, h7, h8, h9⟩

end GcViz
